import Mathlib

/-!
# Verification of RepoDoctor's dependency-graph core

Shallow embedding of the dependency graph, DFS cycle detection, layer
classification/validation and structural scoring of the RepoDoctor
repository, together with proofs about the embedded definitions.

Modelling conventions:
* Go maps are represented by lists (key lists / association lists).  The
  list order stands for the (unspecified) iteration order of the Go map,
  so a theorem quantified over all list representatives covers every
  possible map iteration order.
* Go `float64` arithmetic is modelled by `ℚ`; all concrete values involved
  (10.0, 5.0, 3.0, 100.0 and small integer multiples) are exactly
  representable in `float64`, so the rational model is exact on them.
* Go strings are modelled by `String`; the byte-level scanning in
  `containsLayerKeyword` is modelled on `List Char` (the keywords and
  separators are ASCII, where byte positions and character positions
  coincide for the matches in question).
-/

set_option maxHeartbeats 1000000

namespace RepoDoctor

/-! ## Dependency graph (DependencyGraph, src/unnamed/part_002)

`nodes` is the key list of the Go map `nodes map[string]bool`;
`adj` is the association list for `adjacency map[string]map[string]bool`,
each entry carrying the key list of the inner map. -/

structure DependencyGraph where
  nodes : List String
  adj : List (String × List String)
deriving DecidableEq

/-- `NewDependencyGraph` creates a new empty dependency graph. -/
def NewDependencyGraph : DependencyGraph := ⟨[], []⟩

/-- Lookup in the adjacency map; a missing key behaves like the nil Go map
(no neighbours). -/
def lookupAdj : List (String × List String) → String → List String
  | [], _ => []
  | p :: rest, name => if p.1 = name then p.2 else lookupAdj rest name

/-- Whether the adjacency map has an entry for `name`
(`g.adjacency[name] == nil` test in `AddNode`). -/
def hasAdjKey : List (String × List String) → String → Bool
  | [], _ => false
  | p :: rest, name => p.1 == name || hasAdjKey rest name

/-- `AddNode` adds a node to the graph (no-op when present). -/
def DependencyGraph.AddNode (g : DependencyGraph) (name : String) : DependencyGraph :=
  if name ∈ g.nodes then g
  else { nodes := g.nodes ++ [name],
         adj := if hasAdjKey g.adj name then g.adj else g.adj ++ [(name, [])] }

/-- `AddEdge` adds a directed edge; both endpoints are first ensured to
exist, and the edge is only added when absent. -/
def DependencyGraph.AddEdge (g : DependencyGraph) (fromNode toNode : String) : DependencyGraph :=
  let g1 := g.AddNode fromNode
  let g2 := g1.AddNode toNode
  if toNode ∈ lookupAdj g2.adj fromNode then g2
  else { g2 with
         adj := g2.adj.map (fun p => if p.1 = fromNode then (p.1, p.2 ++ [toNode]) else p) }

/-- `GetDependencies` returns the outgoing edges of a node (the key list of
the inner map; empty for an unknown node). -/
def DependencyGraph.GetDependencies (g : DependencyGraph) (name : String) : List String :=
  lookupAdj g.adj name

/-- `GetAllNodes` returns all nodes of the graph. -/
def DependencyGraph.GetAllNodes (g : DependencyGraph) : List String := g.nodes

/-- `GetNodeCount` returns the number of nodes. -/
def DependencyGraph.GetNodeCount (g : DependencyGraph) : Nat := g.nodes.length

/-- `GetEdgeCount` sums the sizes of the neighbour maps. -/
def DependencyGraph.GetEdgeCount (g : DependencyGraph) : Nat :=
  (g.adj.map (fun p => p.2.length)).sum

/-! ## DFS cycle detection (`DetectCycles`)

The DFS of `DetectCycles` is embedded with explicit state.  `visited` and
`recStack` are the key lists of the Go maps `visited`/`recStack` (a key is
present exactly when the Go map holds `true` for it); `path` and `cycles`
are the slices of the same names.  The recursion is fuelled; the fuel
`g.nodes.length` used by `DetectCycles` is shown adequate in the proofs
below (each recursive call consumes one unvisited node). -/

structure DfsState where
  visited : List String
  recStack : List String
  path : List String
  cycles : List (List String)
deriving DecidableEq

/-- The cycle-extraction step of `DetectCycles`: find the first occurrence
of `dep` in `path` (`cycleStart`) and copy the sub-path from there; when
`dep` does not occur (`cycleStart == -1`) nothing is appended. -/
def extractCycle (path : List String) (dep : String) : List (List String) :=
  let tail := path.dropWhile (fun n => !(n == dep))
  if tail.isEmpty then [] else [tail]

/-- The `for _, dep := range g.GetDependencies(node)` loop of `dfs`,
parametrised by the recursive visit (`visitF`): recurse into unvisited
dependencies, report a cycle when a dependency is on the recursion
stack. -/
def dfsDeps (visitF : String → DfsState → DfsState) :
    List String → DfsState → DfsState
  | [], s => s
  | dep :: rest, s =>
    let s' :=
      if dep ∉ s.visited then visitF dep s
      else if dep ∈ s.recStack then
        { s with cycles := s.cycles ++ extractCycle s.path dep }
      else s
    dfsDeps visitF rest s'

/-- Body of the recursive closure `dfs` in `DetectCycles`: mark the node
visited and on the recursion stack, push it on the path, scan its
dependencies, then backtrack. -/
def dfsVisit (deps : String → List String) : Nat → String → DfsState → DfsState
  | 0, _, s => s
  | fuel + 1, node, s =>
    let s1 : DfsState :=
      { visited := node :: s.visited, recStack := node :: s.recStack,
        path := s.path ++ [node], cycles := s.cycles }
    let s2 := dfsDeps (fun d st => dfsVisit deps fuel d st) (deps node) s1
    { visited := s2.visited, recStack := s2.recStack.erase node,
      path := s2.path.dropLast, cycles := s2.cycles }

/-- The root loop of `DetectCycles`: run DFS from each unvisited node. -/
def detectLoop (deps : String → List String) (fuel : Nat) :
    List String → DfsState → DfsState
  | [], s => s
  | n :: rest, s =>
    detectLoop deps fuel rest (if n ∈ s.visited then s else dfsVisit deps fuel n s)

def initialDfsState : DfsState := ⟨[], [], [], []⟩

/-- `DetectCycles` finds cycles in the graph using DFS. -/
def DependencyGraph.DetectCycles (g : DependencyGraph) : List (List String) :=
  (detectLoop g.GetDependencies g.nodes.length g.nodes initialDfsState).cycles

/-- The edge relation induced by a successor function: `y` is a direct
dependency of `x`. -/
def depRel (deps : String → List String) (x y : String) : Prop := y ∈ deps x

/-- A genuine cycle for a successor function: a non-empty node sequence
(length ≥ 1, so self-loops are included) in which every node has an edge
to the next and the last has an edge back to the first. -/
def IsCycleF (deps : String → List String) : List String → Prop
  | [] => False
  | a :: l =>
    List.Chain' (depRel deps) (a :: l) ∧
      depRel deps ((a :: l).getLast (List.cons_ne_nil a l)) a

instance (deps : String → List String) : (c : List String) → Decidable (IsCycleF deps c)
  | [] => isFalse (fun h => h)
  | a :: l => by unfold IsCycleF depRel; infer_instance

/-- A genuine cycle of the graph. -/
def DependencyGraph.IsCycle (g : DependencyGraph) (c : List String) : Prop :=
  IsCycleF g.GetDependencies c

/-- Acyclicity: the graph has no genuine cycle. -/
def DependencyGraph.Acyclic (g : DependencyGraph) : Prop := ∀ c, ¬ g.IsCycle c

/-- Soundness invariant of the DFS state: the current path is an edge
chain, the recursion stack holds exactly the path members, and every
collected cycle is genuine. -/
def PathOK (deps : String → List String) (s : DfsState) : Prop :=
  List.Chain' (depRel deps) s.path ∧
  (∀ x, x ∈ s.recStack ↔ x ∈ s.path) ∧
  (∀ c ∈ s.cycles, IsCycleF deps c)

/-- Specification of a visit function sufficient for soundness of the
dependency loop: it preserves the invariant, the path and the recursion
stack whenever the visited node is a successor of the path's last node. -/
def SoundVisitSpec (deps : String → List String)
    (visitF : String → DfsState → DfsState) : Prop :=
  ∀ d st, PathOK deps st → (∀ x ∈ st.path.getLast?, d ∈ deps x) →
    PathOK deps (visitF d st) ∧ (visitF d st).path = st.path ∧
      (visitF d st).recStack = st.recStack

/-- Number of elements of `univ` not yet visited; the DFS fuel budget. -/
def cntUnvisited (univ visited : List String) : Nat :=
  univ.countP (fun x => !decide (x ∈ visited))

/-- A list is topologically sorted for a successor function when every
element's successors occur strictly later in the list. -/
def TopoSorted (deps : String → List String) : List String → Prop
  | [] => True
  | u :: rest => (∀ d ∈ deps u, d ∈ rest) ∧ TopoSorted deps rest

/-- Completeness invariant of the DFS state: recursion stack = path
members, the stack is visited, and — as long as no cycle has been
reported — the finished nodes (visited and off the stack) admit a
topological order. -/
def CInv (deps : String → List String) (s : DfsState) : Prop :=
  (∀ x, x ∈ s.recStack ↔ x ∈ s.path) ∧
  (∀ x ∈ s.recStack, x ∈ s.visited) ∧
  (s.cycles = [] → ∃ f, (∀ x, x ∈ f ↔ (x ∈ s.visited ∧ x ∉ s.recStack)) ∧
    TopoSorted deps f)

/-- Specification of a visit function sufficient for completeness, with
fuel budget `B`: on an unvisited node of the universe it preserves path
and stack, grows the visited set (marking the node), only ever adds
cycles, and maintains the invariant. -/
def CompleteVisitSpec (deps : String → List String) (univ : List String) (B : Nat)
    (visitF : String → DfsState → DfsState) : Prop :=
  ∀ d st, CInv deps st → d ∈ univ → d ∉ st.visited →
    cntUnvisited univ st.visited ≤ B →
    (visitF d st).path = st.path ∧ (visitF d st).recStack = st.recStack ∧
    (∀ x ∈ st.visited, x ∈ (visitF d st).visited) ∧ d ∈ (visitF d st).visited ∧
    ((visitF d st).cycles = [] → st.cycles = []) ∧ CInv deps (visitF d st)

/-! ## Layer classification and validation (layer rule sources) -/

inductive LayerConvention where
  | handler
  | service
  | repo
deriving DecidableEq

/-- `layerOrder` hierarchy (lower index = higher layer).  The Go map is
total on the three constants, so it is embedded as a total function. -/
def layerOrder : LayerConvention → Nat
  | .handler => 0
  | .service => 1
  | .repo => 2

/-- `isUpwardImport`: an edge from a lower layer (higher number) to a
higher layer (lower number).  The `fromExists`/`toExists` lookups in the
source always succeed on the closed `LayerConvention` type. -/
def isUpwardImport (fromLayer toLayer : LayerConvention) : Bool :=
  decide (layerOrder toLayer < layerOrder fromLayer)

/-- A path separator byte (`'/'` or `'\\'`). -/
def isSepChar (c : Char) : Bool := c == '/' || c == '\\'

/-- Whether position `i` of `path` holds a separator (out-of-range reads
never happen at the call sites but the model is total). -/
def sepAt (path : List Char) (i : Nat) : Bool :=
  match path[i]? with
  | some c => isSepChar c
  | none => false

/-- `containsLayerKeyword`: scan every position `i ≤ len(path)-len(keyword)`
for an occurrence of `keyword` that is delimited by separators or the ends
of the path.  (The redundant bounds check `i+len(keyword) <= len(path)` of
the source is always true under the loop bound and is omitted.) -/
def containsLayerKeyword (path keyword : List Char) : Bool :=
  if keyword.length ≤ path.length then
    (List.range (path.length - keyword.length + 1)).any (fun i =>
      ((path.drop i).take keyword.length == keyword) &&
      (i == 0 || sepAt path (i - 1)) &&
      (i + keyword.length == path.length || sepAt path (i + keyword.length)))
  else false

/-- `detectLayer` classifies a package path, defaulting to the service
layer. -/
def detectLayer (pkgPath : String) : LayerConvention :=
  if containsLayerKeyword pkgPath.toList "handler".toList then .handler
  else if containsLayerKeyword pkgPath.toList "service".toList then .service
  else if containsLayerKeyword pkgPath.toList "repo".toList then .repo
  else .service

/-- Modelled from the spec (claim C6): the path segments of a character
sequence, split on the path separators `/` and `\\`.  `segments l` is the
maximal separator-free prefix of `l` followed by the segments of what
comes after the first separator; e.g. `a/b\\c` ↦ `[a, b, c]`, with empty
segments kept for leading, trailing or doubled separators. -/
def segments (l : List Char) : List (List Char) :=
  l.takeWhile (fun c => !(isSepChar c)) ::
    (if h : l.dropWhile (fun c => !(isSepChar c)) = [] then []
     else segments ((l.dropWhile (fun c => !(isSepChar c))).tail))
termination_by l.length
decreasing_by
  have hle : (l.dropWhile (fun c => !(isSepChar c))).length ≤ l.length :=
    (List.dropWhile_suffix _).length_le
  have hpos : 0 < (l.dropWhile (fun c => !(isSepChar c))).length :=
    List.length_pos.2 h
  rw [List.length_tail]
  omega

/-- A whole-segment match of `kw` at the very start of `l`: `l` begins
with `kw`, followed by nothing or by a separator. -/
def BMstart (kw l : List Char) : Prop :=
  ∃ post, l = kw ++ post ∧
    (post = [] ∨ ∃ c post', post = c :: post' ∧ isSepChar c = true)

/-- A whole-segment match of `kw` strictly inside `l`: `kw` occurs right
after a separator and is followed by nothing or by a separator. -/
def BMmid (kw l : List Char) : Prop :=
  ∃ pre post, l = pre ++ kw ++ post ∧
    (∃ c pre', pre = pre' ++ [c] ∧ isSepChar c = true) ∧
    (post = [] ∨ ∃ c post', post = c :: post' ∧ isSepChar c = true)

/-- Modelled from the spec (claim C6): the layer classifier described by
the spec — scan the path segments for an exact whole-segment match
against the keywords in priority order handler, service, repo; no match
defaults to Service. -/
def ClassifyLayerSpec (path : List Char) : LayerConvention :=
  if "handler".toList ∈ segments path then .handler
  else if "service".toList ∈ segments path then .service
  else if "repo".toList ∈ segments path then .repo
  else .service

structure LayerViolation where
  From : String
  To : String
  Message : String
deriving DecidableEq

def layerName : LayerConvention → String
  | .handler => "handler"
  | .service => "service"
  | .repo => "repo"

/-- `formatLayerViolation` message text. -/
def formatLayerViolation (fromNode toNode : String) (fromLayer toLayer : LayerConvention) :
    String :=
  fromNode ++ " (" ++ layerName fromLayer ++ ") -> " ++ toNode ++ " (" ++
    layerName toLayer ++ "): upward import not allowed"

/-- `LayerValidationRule.Check`: walk every edge and emit one violation per
upward import.  The rule object only stores this freshly computed list, so
it is embedded as a function of the graph. -/
def LayerValidationRule.Check (g : DependencyGraph) : List LayerViolation :=
  g.GetAllNodes.flatMap (fun node =>
    (g.GetDependencies node).filterMap (fun dep =>
      if isUpwardImport (detectLayer node) (detectLayer dep) then
        some ⟨node, dep, formatLayerViolation node dep (detectLayer node) (detectLayer dep)⟩
      else none))

/-! ## Circular dependency rule (circular_rule.go) -/

structure CycleViolation where
  Path : List String
  Severity : String
deriving DecidableEq

/-- `CircularDependencyRule.Check` stores one `CycleViolation` per
non-empty detected cycle; embedded as the freshly computed list. -/
def CircularDependencyRule.Check (g : DependencyGraph) : List CycleViolation :=
  (g.DetectCycles.filter (fun c => decide (0 < c.length))).map
    (fun c => ⟨c, "critical"⟩)

/-! ## Structural scoring, src/unnamed/part_001 revision

`CalculateScore` of part_001 multiplies the circular and layer counts by
the literals `10.0` and `5.0`, and the size / god-object counts by the
stored weights.  It is embedded as a pure function of the weights field
and the four violation counts. -/

structure ScoringWeights where
  CircularDependencyPenalty : ℚ
  LayerViolationPenalty : ℚ
  SizeViolationPenalty : ℚ
  GodObjectPenalty : ℚ
deriving DecidableEq

/-- `DefaultScoringWeights` of part_001. -/
def DefaultScoringWeights : ScoringWeights := ⟨10, 5, 3, 5⟩

structure StructuralScore where
  TotalScore : ℚ
  CircularPenalty : ℚ
  LayerPenalty : ℚ
  SizePenalty : ℚ
  GodObjectPenalty : ℚ
  ViolationCount : ℕ
  CircularCount : ℕ
  LayerCount : ℕ
  SizeCount : ℕ
  GodObjectCount : ℕ
  MaxScore : ℚ
deriving DecidableEq

/-- `StructuralScorer.CalculateScore` (part_001). -/
def StructuralScorer.CalculateScore (weights : ScoringWeights)
    (circularCount layerCount sizeCount godObjectCount : ℕ) : StructuralScore :=
  let circularPenalty : ℚ := (circularCount : ℚ) * 10
  let layerPenalty : ℚ := (layerCount : ℚ) * 5
  let sizePenalty : ℚ := (sizeCount : ℚ) * weights.SizeViolationPenalty
  let godObjectPenalty : ℚ := (godObjectCount : ℚ) * weights.GodObjectPenalty
  let totalPenalty := circularPenalty + layerPenalty + sizePenalty + godObjectPenalty
  let raw : ℚ := 100 - totalPenalty
  { TotalScore := if raw < 0 then 0 else raw
    CircularPenalty := circularPenalty
    LayerPenalty := layerPenalty
    SizePenalty := sizePenalty
    GodObjectPenalty := godObjectPenalty
    ViolationCount := circularCount + layerCount + sizeCount + godObjectCount
    CircularCount := circularCount
    LayerCount := layerCount
    SizeCount := sizeCount
    GodObjectCount := godObjectCount
    MaxScore := 100 }

/-- The score a part_001 scorer computes for a graph: the scorer is always
constructed with `DefaultScoringWeights`, the circular and layer counts
come from the two graph rules, and size / god-object counts are supplied
externally. -/
def AnalyzeGraphScore (g : DependencyGraph) (sizeCount godObjectCount : ℕ) :
    StructuralScore :=
  StructuralScorer.CalculateScore DefaultScoringWeights
    (CircularDependencyRule.Check g).length
    (LayerValidationRule.Check g).length sizeCount godObjectCount

/-- The TotalScore formula asserted by the specification (claim C2):
`max(0, 100 − Σ weight_i · count_i)` over the four categories, using the
supplied weights in every category.  This follows the spec's words, for
comparison with `StructuralScorer.CalculateScore`. -/
def specTotalScoreFormula (w : ScoringWeights)
    (circularCount layerCount sizeCount godObjectCount : ℕ) : ℚ :=
  max 0 (100 - (w.CircularDependencyPenalty * circularCount +
    w.LayerViolationPenalty * layerCount +
    w.SizeViolationPenalty * sizeCount +
    w.GodObjectPenalty * godObjectCount))

/-! ## Structural scoring, src/scoring.go revision (for claim C9)

This revision has three categories (circular, layer, god-object), honours
the stored weights in all three, and `NewStructuralScorer` falls back to
`DefaultScoringWeights` exactly when the supplied pointer is nil. -/

namespace ScoringGo

structure ScoringWeights where
  CircularDependencyPenalty : ℚ
  LayerViolationPenalty : ℚ
  GodObjectPenalty : ℚ
deriving DecidableEq

def DefaultScoringWeights : ScoringWeights := ⟨10, 5, 5⟩

structure StructuralScore where
  TotalScore : ℚ
  CircularPenalty : ℚ
  LayerPenalty : ℚ
  GodObjectPenalty : ℚ
  ViolationCount : ℕ
  CircularCount : ℕ
  LayerCount : ℕ
  GodObjectCount : ℕ
  MaxScore : ℚ
deriving DecidableEq

/-- The weights a scorer built by `NewStructuralScorer` (scoring.go)
carries: the nil pointer (`none`) falls back to the defaults, any supplied
structure is stored as given. -/
def NewStructuralScorer (weights : Option ScoringWeights) : ScoringWeights :=
  match weights with
  | none => DefaultScoringWeights
  | some w => w

/-- `CalculateScore` of scoring.go: all three categories are multiplied by
the stored weights. -/
def CalculateScore (weights : ScoringWeights)
    (circularCount layerCount godObjectCount : ℕ) : StructuralScore :=
  let circularPenalty : ℚ := (circularCount : ℚ) * weights.CircularDependencyPenalty
  let layerPenalty : ℚ := (layerCount : ℚ) * weights.LayerViolationPenalty
  let godObjectPenalty : ℚ := (godObjectCount : ℚ) * weights.GodObjectPenalty
  let totalPenalty := circularPenalty + layerPenalty + godObjectPenalty
  let raw : ℚ := 100 - totalPenalty
  { TotalScore := if raw < 0 then 0 else raw
    CircularPenalty := circularPenalty
    LayerPenalty := layerPenalty
    GodObjectPenalty := godObjectPenalty
    ViolationCount := circularCount + layerCount + godObjectCount
    CircularCount := circularCount
    LayerCount := layerCount
    GodObjectCount := godObjectCount
    MaxScore := 100 }

/-- Score produced by building a scorer from an optional weights structure
and calculating. -/
def ScoreWith (weights : Option ScoringWeights)
    (circularCount layerCount godObjectCount : ℕ) : StructuralScore :=
  CalculateScore (NewStructuralScorer weights) circularCount layerCount godObjectCount

/-- Modelled from the spec: "absent or zero-valued fields fall back to
defaults" — the per-field fallback that claim C9 attributes to the scorer,
replacing exactly the zero-valued penalty fields by the documented
defaults.  (No function in the source performs this per-field fallback;
this definition follows the spec's words for comparison.) -/
def specPerFieldFallback (w : ScoringWeights) : ScoringWeights :=
  { CircularDependencyPenalty :=
      if w.CircularDependencyPenalty = 0 then 10 else w.CircularDependencyPenalty
    LayerViolationPenalty :=
      if w.LayerViolationPenalty = 0 then 5 else w.LayerViolationPenalty
    GodObjectPenalty :=
      if w.GodObjectPenalty = 0 then 5 else w.GodObjectPenalty }

end ScoringGo

/-! ## Graph construction sequences and well-formedness -/

/-- A graph-building operation of the public `Graph` interface. -/
inductive GraphOp where
  | addNode (name : String)
  | addEdge (fromNode toNode : String)

def applyOp (g : DependencyGraph) : GraphOp → DependencyGraph
  | .addNode n => g.AddNode n
  | .addEdge a b => g.AddEdge a b

/-- The graph obtained by running a sequence of operations on the empty
graph. -/
def buildGraph (ops : List GraphOp) : DependencyGraph :=
  ops.foldl applyOp NewDependencyGraph

/-- Well-formedness: the map representations are duplicate-free and every
adjacency key and target is a node.  All graphs built through the public
interface satisfy this. -/
def WF (g : DependencyGraph) : Prop :=
  g.nodes.Nodup ∧
  (g.adj.map Prod.fst).Nodup ∧
  (∀ p ∈ g.adj, p.1 ∈ g.nodes) ∧
  (∀ p ∈ g.adj, p.2.Nodup) ∧
  (∀ p ∈ g.adj, ∀ t ∈ p.2, t ∈ g.nodes)

/-- The list of (from, to) pairs of the adjacency representation. -/
def edgePairs (g : DependencyGraph) : List (String × String) :=
  g.adj.flatMap (fun p => p.2.map (fun t => (p.1, t)))

/-- Whether a build operation mentions a given identifier. -/
def mentionsOp (name : String) : GraphOp → Bool
  | .addNode n => n == name
  | .addEdge a b => a == name || b == name

lemma nodup_append_single {α : Type} (l : List α) (a : α) (h1 : l.Nodup) (h2 : a ∉ l) :
    (l ++ [a]).Nodup :=
  h1.append (List.nodup_singleton a)
    (fun x hx hx' => by simp only [List.mem_singleton] at hx'; exact h2 (hx' ▸ hx))

lemma hasAdjKey_eq_true_iff (adj : List (String × List String)) (name : String) :
    hasAdjKey adj name = true ↔ name ∈ adj.map Prod.fst := by
  induction adj with
  | nil => simp [hasAdjKey]
  | cons p rest ih =>
    rw [hasAdjKey]
    simp only [Bool.or_eq_true, beq_iff_eq, ih, List.map_cons, List.mem_cons]
    constructor
    · rintro (h | h)
      · exact Or.inl h.symm
      · exact Or.inr h
    · rintro (h | h)
      · exact Or.inl h.symm
      · exact Or.inr h

lemma lookupAdj_eq_nil_of_not_key (adj : List (String × List String)) (name : String)
    (h : name ∉ adj.map Prod.fst) : lookupAdj adj name = [] := by
  induction adj with
  | nil => rfl
  | cons p rest ih =>
    simp only [List.map_cons, List.mem_cons, not_or] at h
    rw [lookupAdj, if_neg (fun hh => h.1 hh.symm)]
    exact ih h.2

lemma mem_lookupAdj (adj : List (String × List String)) (name t : String)
    (h : t ∈ lookupAdj adj name) : ∃ p ∈ adj, p.1 = name ∧ t ∈ p.2 := by
  induction adj with
  | nil => simp [lookupAdj] at h
  | cons p rest ih =>
    rw [lookupAdj] at h
    by_cases hp : p.1 = name
    · rw [if_pos hp] at h
      exact ⟨p, List.mem_cons_self .., hp, h⟩
    · rw [if_neg hp] at h
      obtain ⟨q, hq, hq1, hq2⟩ := ih h
      exact ⟨q, List.mem_cons_of_mem _ hq, hq1, hq2⟩

lemma lookupAdj_of_mem (adj : List (String × List String)) (p : String × List String)
    (hnd : (adj.map Prod.fst).Nodup) (hp : p ∈ adj) : lookupAdj adj p.1 = p.2 := by
  induction adj with
  | nil => simp at hp
  | cons q rest ih =>
    simp only [List.map_cons, List.nodup_cons] at hnd
    rcases List.mem_cons.1 hp with h | h
    · subst h; rw [lookupAdj, if_pos rfl]
    · rw [lookupAdj]
      by_cases hq : q.1 = p.1
      · exact absurd (hq ▸ List.mem_map_of_mem Prod.fst h) hnd.1
      · rw [if_neg hq]; exact ih hnd.2 h

lemma WF_empty : WF NewDependencyGraph := by
  refine ⟨List.nodup_nil, List.nodup_nil, ?_, ?_, ?_⟩ <;> intro p hp <;>
    simp [NewDependencyGraph] at hp

lemma AddNode_nodes (g : DependencyGraph) (name : String) :
    (g.AddNode name).nodes = if name ∈ g.nodes then g.nodes else g.nodes ++ [name] := by
  rw [DependencyGraph.AddNode]
  by_cases h : name ∈ g.nodes <;> simp [h]

lemma mem_AddNode_nodes (g : DependencyGraph) (name : String) :
    name ∈ (g.AddNode name).nodes := by
  rw [AddNode_nodes]
  by_cases h : name ∈ g.nodes <;> simp [h]

lemma AddNode_nodes_mono (g : DependencyGraph) (name x : String) (hx : x ∈ g.nodes) :
    x ∈ (g.AddNode name).nodes := by
  rw [AddNode_nodes]
  by_cases h : name ∈ g.nodes <;> simp [h, hx]

lemma WF_AddNode (g : DependencyGraph) (name : String) (h : WF g) : WF (g.AddNode name) := by
  obtain ⟨h1, h2, h3, h4, h5⟩ := h
  rw [DependencyGraph.AddNode]
  by_cases hn : name ∈ g.nodes
  · rw [if_pos hn]; exact ⟨h1, h2, h3, h4, h5⟩
  · rw [if_neg hn]
    by_cases hk : hasAdjKey g.adj name = true
    · rw [if_pos hk]
      refine ⟨nodup_append_single _ _ h1 hn, h2, ?_, h4, ?_⟩
      · exact fun p hp => List.mem_append_left _ (h3 p hp)
      · exact fun p hp t ht => List.mem_append_left _ (h5 p hp t ht)
    · rw [if_neg hk]
      have hkeys : name ∉ g.adj.map Prod.fst := by
        rw [← hasAdjKey_eq_true_iff]; simp [hk]
      refine ⟨nodup_append_single _ _ h1 hn, ?_, ?_, ?_, ?_⟩
      · rw [List.map_append]
        exact nodup_append_single _ _ h2 hkeys
      · intro p hp
        rcases List.mem_append.1 hp with hp | hp
        · exact List.mem_append_left _ (h3 p hp)
        · simp only [List.mem_singleton] at hp
          subst hp; simp
      · intro p hp
        rcases List.mem_append.1 hp with hp | hp
        · exact h4 p hp
        · simp only [List.mem_singleton] at hp; subst hp; exact List.nodup_nil
      · intro p hp t ht
        rcases List.mem_append.1 hp with hp | hp
        · exact List.mem_append_left _ (h5 p hp t ht)
        · simp only [List.mem_singleton] at hp; subst hp; simp at ht

lemma AddEdge_adj_keys (g : DependencyGraph) (a b : String) :
    (g.AddEdge a b).adj.map Prod.fst = (((g.AddNode a).AddNode b).adj).map Prod.fst ∧
      (g.AddEdge a b).nodes = ((g.AddNode a).AddNode b).nodes := by
  rw [DependencyGraph.AddEdge]
  by_cases h : b ∈ lookupAdj ((g.AddNode a).AddNode b).adj a
  · rw [if_pos h]; exact ⟨rfl, rfl⟩
  · rw [if_neg h]
    refine ⟨?_, rfl⟩
    simp only [List.map_map]
    congr 1
    funext p
    by_cases hp : p.1 = a <;> simp [hp]

lemma WF_AddEdge (g : DependencyGraph) (a b : String) (h : WF g) : WF (g.AddEdge a b) := by
  have h2 := WF_AddNode _ b (WF_AddNode g a h)
  rw [DependencyGraph.AddEdge]
  set g2 := (g.AddNode a).AddNode b with hg2
  by_cases hmem : b ∈ lookupAdj g2.adj a
  · rw [if_pos hmem]; exact h2
  · rw [if_neg hmem]
    obtain ⟨w1, w2, w3, w4, w5⟩ := h2
    have hb : b ∈ g2.nodes := mem_AddNode_nodes _ b
    have hkeys : (g2.adj.map (fun p => if p.1 = a then (p.1, p.2 ++ [b]) else p)).map Prod.fst
        = g2.adj.map Prod.fst := by
      simp only [List.map_map]
      congr 1
      funext p
      by_cases hp : p.1 = a <;> simp [hp]
    refine ⟨w1, ?_, ?_, ?_, ?_⟩
    · rw [hkeys]; exact w2
    · intro p hp
      obtain ⟨q, hq, hqe⟩ := List.mem_map.1 hp
      by_cases hqa : q.1 = a
      · rw [if_pos hqa] at hqe
        rw [← hqe]
        exact w3 q hq
      · rw [if_neg hqa] at hqe
        rw [← hqe]; exact w3 q hq
    · intro p hp
      obtain ⟨q, hq, hqe⟩ := List.mem_map.1 hp
      by_cases hqa : q.1 = a
      · rw [if_pos hqa] at hqe
        have hlook : lookupAdj g2.adj a = q.2 := by
          have := lookupAdj_of_mem g2.adj q w2 hq
          rwa [hqa] at this
        have hbq : b ∉ q.2 := fun hc => hmem (hlook ▸ hc)
        rw [← hqe]
        simpa [List.nodup_append] using ⟨w4 q hq, hbq⟩
      · rw [if_neg hqa] at hqe
        rw [← hqe]; exact w4 q hq
    · intro p hp t ht
      obtain ⟨q, hq, hqe⟩ := List.mem_map.1 hp
      by_cases hqa : q.1 = a
      · rw [if_pos hqa] at hqe
        rw [← hqe] at ht
        simp only at ht
        rcases List.mem_append.1 ht with ht | ht
        · exact w5 q hq t ht
        · simp only [List.mem_singleton] at ht; subst ht; exact hb
      · rw [if_neg hqa] at hqe
        rw [← hqe] at ht
        exact w5 q hq t ht

lemma WF_applyOp (g : DependencyGraph) (op : GraphOp) (h : WF g) : WF (applyOp g op) := by
  cases op with
  | addNode n => exact WF_AddNode g n h
  | addEdge a b => exact WF_AddEdge g a b h

lemma WF_buildGraph (ops : List GraphOp) : WF (buildGraph ops) := by
  have : ∀ g, WF g → WF (ops.foldl applyOp g) := by
    induction ops with
    | nil => exact fun g h => h
    | cons op rest ih => exact fun g h => ih _ (WF_applyOp g op h)
  exact this NewDependencyGraph WF_empty

lemma AddNode_of_mem (g : DependencyGraph) (n : String) (h : n ∈ g.nodes) :
    g.AddNode n = g := by
  rw [DependencyGraph.AddNode, if_pos h]

lemma AddEdge_of_mem (g : DependencyGraph) (a b : String) (hWF : WF g)
    (h : b ∈ g.GetDependencies a) : g.AddEdge a b = g := by
  obtain ⟨p, hp, hp1, hp2⟩ := mem_lookupAdj g.adj a b h
  have ha : a ∈ g.nodes := hp1 ▸ hWF.2.2.1 p hp
  have hb : b ∈ g.nodes := hWF.2.2.2.2 p hp b hp2
  rw [DependencyGraph.GetDependencies] at h
  rw [DependencyGraph.AddEdge]
  rw [AddNode_of_mem g a ha, AddNode_of_mem g b hb]
  rw [if_pos h]

lemma GetEdgeCount_eq_length_edgePairs (g : DependencyGraph) :
    g.GetEdgeCount = (edgePairs g).length := by
  rw [DependencyGraph.GetEdgeCount, edgePairs]
  induction g.adj with
  | nil => rfl
  | cons p rest ih => simp [List.flatMap_cons, ih]

lemma pairs_nodup (adj : List (String × List String)) (h2 : (adj.map Prod.fst).Nodup)
    (h4 : ∀ p ∈ adj, p.2.Nodup) :
    (adj.flatMap (fun p => p.2.map (fun t => (p.1, t)))).Nodup := by
  induction adj with
  | nil => exact List.nodup_nil
  | cons p rest ih =>
    rw [List.flatMap_cons]
    simp only [List.map_cons, List.nodup_cons] at h2
    refine List.Nodup.append ?_ ?_ ?_
    · exact (h4 p (List.mem_cons_self ..)).map
        (fun t t' htt => by simpa using htt)
    · exact ih h2.2 (fun q hq => h4 q (List.mem_cons_of_mem _ hq))
    · intro x hx hx'
      obtain ⟨t, -, ht⟩ := List.mem_map.1 hx
      obtain ⟨q, hq, hxq⟩ := List.mem_flatMap.1 hx'
      obtain ⟨t', -, ht'⟩ := List.mem_map.1 hxq
      apply h2.1
      have hx1 : x.1 = p.1 := by rw [← ht]
      have hx2 : x.1 = q.1 := by rw [← ht']
      rw [← hx1, hx2]
      exact List.mem_map_of_mem Prod.fst hq

lemma edgePairs_nodup (g : DependencyGraph) (h : WF g) : (edgePairs g).Nodup :=
  pairs_nodup g.adj h.2.1 h.2.2.2.1

lemma absent_preserved (g : DependencyGraph) (op : GraphOp) (name : String)
    (hop : mentionsOp name op = false)
    (h1 : name ∉ g.nodes) (h2 : name ∉ g.adj.map Prod.fst) :
    name ∉ (applyOp g op).nodes ∧ name ∉ (applyOp g op).adj.map Prod.fst := by
  have hAdd : ∀ (g' : DependencyGraph) (n : String), n ≠ name →
      name ∉ g'.nodes → name ∉ g'.adj.map Prod.fst →
      name ∉ (g'.AddNode n).nodes ∧ name ∉ (g'.AddNode n).adj.map Prod.fst := by
    intro g' n hn hg1 hg2
    rw [DependencyGraph.AddNode]
    by_cases hmem : n ∈ g'.nodes
    · rw [if_pos hmem]; exact ⟨hg1, hg2⟩
    · rw [if_neg hmem]
      constructor
      · intro hc
        rcases List.mem_append.1 hc with hc | hc
        · exact hg1 hc
        · simp only [List.mem_singleton] at hc; exact hn hc.symm
      · by_cases hk : hasAdjKey g'.adj n = true
        · rw [if_pos hk]; exact hg2
        · rw [if_neg hk]
          intro hc
          rw [List.map_append] at hc
          rcases List.mem_append.1 hc with hc | hc
          · exact hg2 hc
          · simp only [List.map_cons, List.map_nil, List.mem_singleton] at hc
            exact hn hc.symm
  cases op with
  | addNode n =>
    rw [mentionsOp, beq_eq_false_iff_ne] at hop
    exact hAdd g n hop h1 h2
  | addEdge a b =>
    rw [mentionsOp, Bool.or_eq_false_iff, beq_eq_false_iff_ne, beq_eq_false_iff_ne] at hop
    have ha : a ≠ name := hop.1
    have hb : b ≠ name := hop.2
    have s1 := hAdd g a ha h1 h2
    have s2 := hAdd (g.AddNode a) b hb s1.1 s1.2
    have hkeys := AddEdge_adj_keys g a b
    refine ⟨?_, ?_⟩
    · rw [show (applyOp g (.addEdge a b)).nodes = (g.AddEdge a b).nodes from rfl, hkeys.2]
      exact s2.1
    · rw [show (applyOp g (.addEdge a b)).adj = (g.AddEdge a b).adj from rfl, hkeys.1]
      exact s2.2

lemma buildGraph_absent (ops : List GraphOp) (name : String)
    (h : ∀ op ∈ ops, mentionsOp name op = false) :
    name ∉ (buildGraph ops).nodes ∧ name ∉ (buildGraph ops).adj.map Prod.fst := by
  suffices hgen : ∀ (l : List GraphOp) (g : DependencyGraph),
      (∀ op ∈ l, mentionsOp name op = false) → name ∉ g.nodes → name ∉ g.adj.map Prod.fst →
      name ∉ (l.foldl applyOp g).nodes ∧ name ∉ (l.foldl applyOp g).adj.map Prod.fst by
    exact hgen ops NewDependencyGraph h (by simp [NewDependencyGraph])
      (by simp [NewDependencyGraph])
  intro l
  induction l with
  | nil => exact fun g _ h1 h2 => ⟨h1, h2⟩
  | cons op rest ih =>
    intro g hl h1 h2
    have hstep := absent_preserved g op name (hl op (List.mem_cons_self ..)) h1 h2
    exact ih _ (fun o ho => hl o (List.mem_cons_of_mem _ ho)) hstep.1 hstep.2

lemma if_neg_lt_eq_max (r : ℚ) : (if r < 0 then 0 else r) = max 0 r := by
  rcases lt_or_le r 0 with h | h
  · rw [if_pos h, max_eq_left h.le]
  · rw [if_neg (not_lt.2 h), max_eq_right h]

/-! ## Claim theorems -/

/-- C2: `StructuralScorer.CalculateScore` does NOT honour the supplied
circular and layer weights: with weights `⟨1, 5, 3, 5⟩` and a single
circular violation it returns `90` (the hard-coded `10.0` penalty), while
the spec's formula `max(0, 100 − Σ wᵢ·cᵢ)` would give `99`.  This refutes
claim C2 as stated (quantified over all weights). -/
theorem claim_C2_counterexample :
    (StructuralScorer.CalculateScore ⟨1, 5, 3, 5⟩ 1 0 0 0).TotalScore = 90 ∧
    specTotalScoreFormula ⟨1, 5, 3, 5⟩ 1 0 0 0 = 99 ∧
    (StructuralScorer.CalculateScore ⟨1, 5, 3, 5⟩ 1 0 0 0).TotalScore ≠
      specTotalScoreFormula ⟨1, 5, 3, 5⟩ 1 0 0 0 := by
  refine ⟨?_, ?_, ?_⟩ <;> norm_num [StructuralScorer.CalculateScore, specTotalScoreFormula]

/-- C2 (amended): `CalculateScore` returns
`TotalScore = max(0, 100 − (10·circular + 5·layer + w_size·size +
w_god·god))` — the circular and layer penalties use the fixed literals
`10.0` and `5.0` of the source, not the supplied weights — with
`MaxScore = 100` and a non-negative total; with the default weights one
cycle gives `90` and eleven circular violations clamp to exactly `0`. -/
theorem claim_C2 (w : ScoringWeights) (c l s g : ℕ) :
    (StructuralScorer.CalculateScore w c l s g).TotalScore =
      max 0 (100 - ((10 : ℚ) * c + 5 * l + w.SizeViolationPenalty * s +
        w.GodObjectPenalty * g)) ∧
    (StructuralScorer.CalculateScore w c l s g).MaxScore = 100 ∧
    0 ≤ (StructuralScorer.CalculateScore w c l s g).TotalScore ∧
    (StructuralScorer.CalculateScore DefaultScoringWeights 1 0 0 0).TotalScore = 90 ∧
    (StructuralScorer.CalculateScore DefaultScoringWeights 11 0 0 0).TotalScore = 0 := by
  refine ⟨?_, rfl, ?_, by norm_num [StructuralScorer.CalculateScore, DefaultScoringWeights],
    by norm_num [StructuralScorer.CalculateScore, DefaultScoringWeights]⟩
  · rw [StructuralScorer.CalculateScore]
    simp only
    rw [if_neg_lt_eq_max]
    ring_nf
  · rw [StructuralScorer.CalculateScore]
    simp only
    rw [if_neg_lt_eq_max]
    exact le_max_left 0 _

/-- C9: a zero-valued penalty field of a supplied weights structure does
NOT fall back to the default: a scorer built from `⟨0, 5, 5⟩` scores one
circular violation as `100` (zero penalty), while the spec's per-field
fallback would give `90`. -/
theorem claim_C9_counterexample :
    (ScoringGo.ScoreWith (some ⟨0, 5, 5⟩) 1 0 0).TotalScore = 100 ∧
    (ScoringGo.CalculateScore (ScoringGo.specPerFieldFallback ⟨0, 5, 5⟩) 1 0 0).TotalScore
      = 90 ∧
    (ScoringGo.ScoreWith (some ⟨0, 5, 5⟩) 1 0 0).TotalScore ≠
      (ScoringGo.CalculateScore (ScoringGo.specPerFieldFallback ⟨0, 5, 5⟩) 1 0 0).TotalScore := by
  refine ⟨?_, ?_, ?_⟩ <;>
    norm_num [ScoringGo.ScoreWith, ScoringGo.NewStructuralScorer,
      ScoringGo.CalculateScore, ScoringGo.specPerFieldFallback]

/-- C9 (amended): only a wholly-absent (nil) weights structure falls back
to the documented defaults, as a whole; any supplied structure — including
one with zero-valued fields — is used exactly as given by
`CalculateScore`. -/
theorem claim_C9 (w : ScoringGo.ScoringWeights) (c l g : ℕ) :
    ScoringGo.ScoreWith none c l g =
      ScoringGo.CalculateScore ScoringGo.DefaultScoringWeights c l g ∧
    ScoringGo.ScoreWith (some w) c l g = ScoringGo.CalculateScore w c l g :=
  ⟨rfl, rfl⟩

/-- C8: after any finite sequence of `AddNode`/`AddEdge` operations from
the empty graph, the node list is duplicate-free, re-adding an existing
node leaves `GetNodeCount` unchanged, re-adding an existing edge leaves
`GetEdgeCount` unchanged, `GetEdgeCount` counts each unique (from, to)
pair exactly once, and every adjacency key and target is in the node
set. -/
theorem claim_C8 (ops : List GraphOp) :
    (buildGraph ops).nodes.Nodup ∧
    (∀ n ∈ (buildGraph ops).nodes,
      ((buildGraph ops).AddNode n).GetNodeCount = (buildGraph ops).GetNodeCount) ∧
    (∀ a b, b ∈ (buildGraph ops).GetDependencies a →
      ((buildGraph ops).AddEdge a b).GetEdgeCount = (buildGraph ops).GetEdgeCount) ∧
    ((buildGraph ops).GetEdgeCount = (edgePairs (buildGraph ops)).length ∧
      (edgePairs (buildGraph ops)).Nodup) ∧
    (∀ p ∈ (buildGraph ops).adj, p.1 ∈ (buildGraph ops).nodes ∧
      ∀ t ∈ p.2, t ∈ (buildGraph ops).nodes) := by
  have hWF := WF_buildGraph ops
  refine ⟨hWF.1, ?_, ?_,
    ⟨GetEdgeCount_eq_length_edgePairs _, edgePairs_nodup _ hWF⟩, ?_⟩
  · intro n hn; rw [AddNode_of_mem _ n hn]
  · intro a b hb; rw [AddEdge_of_mem _ a b hWF hb]
  · exact fun p hp => ⟨hWF.2.2.1 p hp, fun t ht => hWF.2.2.2.2 p hp t ht⟩

theorem claim_C8_witness :
    "A" ∈ (buildGraph [.addEdge "A" "B"]).nodes ∧
    ((buildGraph [.addEdge "A" "B"]).AddNode "A").GetNodeCount
      = (buildGraph [.addEdge "A" "B"]).GetNodeCount ∧
    "B" ∈ (buildGraph [.addEdge "A" "B"]).GetDependencies "A" ∧
    ((buildGraph [.addEdge "A" "B"]).AddEdge "A" "B").GetEdgeCount
      = (buildGraph [.addEdge "A" "B"]).GetEdgeCount :=
  ⟨by decide, (claim_C8 [.addEdge "A" "B"]).2.1 "A" (by decide), by decide,
    (claim_C8 [.addEdge "A" "B"]).2.2.1 "A" "B" (by decide)⟩

/-- C10: an identifier never added as a node and never appearing as an
edge endpoint is not in the node set and `GetDependencies` returns the
empty list for it (the lookup is total). -/
theorem claim_C10 (ops : List GraphOp) (name : String)
    (h : ∀ op ∈ ops, mentionsOp name op = false) :
    (buildGraph ops).GetDependencies name = [] ∧ name ∉ (buildGraph ops).nodes := by
  have habs := buildGraph_absent ops name h
  refine ⟨?_, habs.1⟩
  rw [DependencyGraph.GetDependencies]
  exact lookupAdj_eq_nil_of_not_key _ _ habs.2

/-! ## DFS soundness: every reported cycle is genuine -/

lemma dropWhile_head_false {α : Type} (p : α → Bool) (l : List α) (a : α) (t : List α)
    (h : l.dropWhile p = a :: t) : p a = false := by
  induction l with
  | nil => simp [List.dropWhile] at h
  | cons x xs ih =>
    rw [List.dropWhile_cons] at h
    by_cases hx : p x = true
    · rw [if_pos hx] at h; exact ih h
    · rw [if_neg hx] at h
      obtain ⟨hxa, -⟩ := List.cons.inj h
      rw [← hxa]
      exact Bool.eq_false_iff.2 hx

lemma mem_extractCycle (path : List String) (dep : String) (c : List String)
    (hc : c ∈ extractCycle path dep) : ∃ t, c = dep :: t ∧ c <:+ path := by
  rw [extractCycle] at hc
  rcases hdw : path.dropWhile (fun n => !(n == dep)) with - | ⟨a, t⟩
  · rw [hdw] at hc; simp at hc
  · rw [hdw] at hc
    simp only [List.isEmpty_cons, if_neg, Bool.false_eq_true, not_false_eq_true,
      List.mem_singleton] at hc
    have ha : a = dep := by
      have := dropWhile_head_false (fun n => !(n == dep)) path a t hdw
      simpa using this
    refine ⟨t, by rw [hc, ha], ?_⟩
    rw [hc, ← hdw]
    exact List.dropWhile_suffix _

lemma extractCycle_sound (deps : String → List String) (path : List String) (dep : String)
    (hchain : List.Chain' (depRel deps) path)
    (hlast : ∀ x ∈ path.getLast?, dep ∈ deps x) :
    ∀ c ∈ extractCycle path dep, IsCycleF deps c := by
  intro c hc
  obtain ⟨t, hct, hsuff⟩ := mem_extractCycle path dep c hc
  subst hct
  obtain ⟨pre, hpre⟩ := hsuff
  have h1 : path.getLast? = some ((dep :: t).getLast (List.cons_ne_nil dep t)) := by
    rw [← hpre, List.getLast?_append_cons]
    exact List.getLast?_eq_getLast _ _
  exact ⟨hchain.suffix ⟨pre, hpre⟩, hlast _ h1⟩

lemma dfsDeps_sound (deps : String → List String) (visitF : String → DfsState → DfsState)
    (hv : SoundVisitSpec deps visitF) :
    ∀ (ds : List String) (s : DfsState), PathOK deps s →
      (∀ d ∈ ds, ∀ x ∈ s.path.getLast?, d ∈ deps x) →
      PathOK deps (dfsDeps visitF ds s) ∧ (dfsDeps visitF ds s).path = s.path ∧
        (dfsDeps visitF ds s).recStack = s.recStack := by
  intro ds
  induction ds with
  | nil => exact fun s h _ => ⟨h, rfl, rfl⟩
  | cons dep rest ih =>
    intro s hs hd
    have heq : dfsDeps visitF (dep :: rest) s = dfsDeps visitF rest
        (if dep ∉ s.visited then visitF dep s
         else if dep ∈ s.recStack then
           { s with cycles := s.cycles ++ extractCycle s.path dep }
         else s) := rfl
    rw [heq]
    by_cases h1 : dep ∉ s.visited
    · rw [if_pos h1]
      obtain ⟨hP, hpath, hrec⟩ := hv dep s hs (hd dep (List.mem_cons_self ..))
      have hd' : ∀ d ∈ rest, ∀ x ∈ (visitF dep s).path.getLast?, d ∈ deps x := by
        rw [hpath]
        exact fun d hdm => hd d (List.mem_cons_of_mem _ hdm)
      obtain ⟨q1, q2, q3⟩ := ih (visitF dep s) hP hd'
      exact ⟨q1, q2.trans hpath, q3.trans hrec⟩
    · rw [if_neg h1]
      by_cases h2 : dep ∈ s.recStack
      · rw [if_pos h2]
        have hP : PathOK deps { s with cycles := s.cycles ++ extractCycle s.path dep } := by
          refine ⟨hs.1, hs.2.1, ?_⟩
          intro c hc
          rcases List.mem_append.1 hc with hc | hc
          · exact hs.2.2 c hc
          · exact extractCycle_sound deps s.path dep hs.1
              (hd dep (List.mem_cons_self ..)) c hc
        obtain ⟨q1, q2, q3⟩ := ih _ hP
          (fun d hdm => hd d (List.mem_cons_of_mem _ hdm))
        exact ⟨q1, q2, q3⟩
      · rw [if_neg h2]
        exact ih s hs (fun d hdm => hd d (List.mem_cons_of_mem _ hdm))

lemma dfsVisit_sound (deps : String → List String) (fuel : Nat) :
    SoundVisitSpec deps (fun d st => dfsVisit deps fuel d st) := by
  induction fuel with
  | zero => exact fun d st h _ => ⟨h, rfl, rfl⟩
  | succ fuel ih =>
    intro d st hst hl
    have hs1 : PathOK deps
        ⟨d :: st.visited, d :: st.recStack, st.path ++ [d], st.cycles⟩ := by
      refine ⟨?_, ?_, hst.2.2⟩
      · exact List.chain'_append.2 ⟨hst.1, List.chain'_singleton d,
          fun x hx y hy => by
            simp only [List.head?_cons, Option.mem_def, Option.some.injEq] at hy
            rw [← hy]
            exact hl x hx⟩
      · intro x
        simp only [List.mem_cons, List.mem_append, List.mem_singleton]
        rw [hst.2.1 x]
        tauto
    have hd1 : ∀ d' ∈ deps d, ∀ x ∈
        (⟨d :: st.visited, d :: st.recStack, st.path ++ [d], st.cycles⟩ : DfsState).path.getLast?,
        d' ∈ deps x := by
      intro d' hd' x hx
      simp only [List.getLast?_concat, Option.mem_def, Option.some.injEq] at hx
      rw [← hx]
      exact hd'
    obtain ⟨h2, hpath2, hrec2⟩ := dfsDeps_sound deps _ ih (deps d)
      ⟨d :: st.visited, d :: st.recStack, st.path ++ [d], st.cycles⟩ hs1 hd1
    refine ⟨⟨?_, ?_, h2.2.2⟩, ?_, ?_⟩
    · show List.Chain' (depRel deps) (dfsDeps _ (deps d) _).path.dropLast
      rw [hpath2]
      simpa [List.dropLast_concat] using hst.1
    · intro x
      show x ∈ (dfsDeps _ (deps d) _).recStack.erase d ↔
        x ∈ (dfsDeps _ (deps d) _).path.dropLast
      rw [hpath2, hrec2]
      simp only [List.erase_cons_head, List.dropLast_concat]
      exact hst.2.1 x
    · show (dfsDeps _ (deps d) _).path.dropLast = st.path
      rw [hpath2]
      simp [List.dropLast_concat]
    · show (dfsDeps _ (deps d) _).recStack.erase d = st.recStack
      rw [hrec2]
      exact List.erase_cons_head d st.recStack

lemma detectLoop_sound (deps : String → List String) (fuel : Nat) :
    ∀ (roots : List String) (s : DfsState), PathOK deps s → s.path = [] →
      PathOK deps (detectLoop deps fuel roots s) ∧
        (detectLoop deps fuel roots s).path = [] := by
  intro roots
  induction roots with
  | nil => exact fun s h hp => ⟨h, hp⟩
  | cons n rest ih =>
    intro s hs hp
    rw [detectLoop]
    by_cases hn : n ∈ s.visited
    · rw [if_pos hn]; exact ih s hs hp
    · rw [if_neg hn]
      obtain ⟨h1, h2, -⟩ := dfsVisit_sound deps fuel n s hs
        (by rw [hp]; intro x hx; simp at hx)
      exact ih _ h1 (h2.trans hp)

lemma initial_PathOK (deps : String → List String) : PathOK deps initialDfsState := by
  refine ⟨List.chain'_nil, ?_, ?_⟩
  · intro x; simp [initialDfsState]
  · intro c hc; simp [initialDfsState] at hc

lemma detectCycles_sound (g : DependencyGraph) (c : List String) (hc : c ∈ g.DetectCycles) :
    g.IsCycle c := by
  rw [DependencyGraph.DetectCycles] at hc
  have h := (detectLoop_sound g.GetDependencies g.nodes.length g.nodes initialDfsState
    (initial_PathOK g.GetDependencies) rfl).1
  exact h.2.2 c hc

/-- C4: every sequence returned by `DetectCycles` is a genuine cycle of
the input graph: non-empty (self-loops included), consecutive nodes are
joined by edges, and the last node has an edge back to the first (this is
what `DependencyGraph.IsCycle` states). -/
theorem claim_C4 (g : DependencyGraph) (c : List String) (hc : c ∈ g.DetectCycles) :
    g.IsCycle c :=
  detectCycles_sound g c hc

theorem claim_C4_witness :
    (["A", "B"] ∈ (DependencyGraph.DetectCycles ⟨["A", "B"], [("A", ["B"]), ("B", ["A"])]⟩)) ∧
    (DependencyGraph.IsCycle ⟨["A", "B"], [("A", ["B"]), ("B", ["A"])]⟩ ["A", "B"]) :=
  ⟨by decide, claim_C4 ⟨["A", "B"], [("A", ["B"]), ("B", ["A"])]⟩ ["A", "B"] (by decide)⟩

/-! ## DFS completeness: a cycle-free report certifies acyclicity -/

lemma cnt_mono (univ v1 v2 : List String) (h : ∀ x ∈ v1, x ∈ v2) :
    cntUnvisited univ v2 ≤ cntUnvisited univ v1 := by
  refine List.countP_mono_left ?_
  intro a _ ha
  simp only [Bool.not_eq_eq_eq_not, Bool.not_true, decide_eq_false_iff_not] at ha ⊢
  exact fun hc => ha (h a hc)

lemma cnt_cons_lt (univ vis : List String) (d : String) (hd : d ∈ univ) (hnv : d ∉ vis) :
    cntUnvisited univ (d :: vis) < cntUnvisited univ vis := by
  induction univ with
  | nil => simp at hd
  | cons x l ih =>
    rw [cntUnvisited, List.countP_cons, cntUnvisited, List.countP_cons]
    by_cases hxd : x = d
    · subst hxd
      have h1 : (!decide (x ∈ x :: vis)) = false := by simp
      have h2 : (!decide (x ∈ vis)) = true := by simp [hnv]
      rw [h1, h2]
      have hm : List.countP (fun y => !decide (y ∈ x :: vis)) l ≤
          List.countP (fun y => !decide (y ∈ vis)) l := by
        refine List.countP_mono_left ?_
        intro a _ ha
        simp only [Bool.not_eq_eq_eq_not, Bool.not_true, decide_eq_false_iff_not,
          List.mem_cons] at ha ⊢
        exact fun hc => ha (Or.inr hc)
      have e1 : (if false = true then 1 else 0) = 0 := rfl
      have e2 : (if true = true then 1 else 0) = 1 := rfl
      rw [e1, e2]
      omega
    · have hdl : d ∈ l := by
        rcases List.mem_cons.1 hd with h | h
        · exact absurd h.symm hxd
        · exact h
      have hif : (!decide (x ∈ d :: vis)) = (!decide (x ∈ vis)) := by
        simp [List.mem_cons, hxd]
      rw [hif]
      have := ih hdl
      rw [cntUnvisited, cntUnvisited] at this
      omega

lemma topoSorted_mem_deps (deps : String → List String) :
    ∀ (f : List String), TopoSorted deps f → ∀ w ∈ f, ∀ d ∈ deps w, d ∈ f := by
  intro f
  induction f with
  | nil => intro _ w hw; simp at hw
  | cons u rest ih =>
    intro ht w hw d hd
    rcases List.mem_cons.1 hw with h | h
    · subst h; exact List.mem_cons_of_mem _ (ht.1 d hd)
    · exact List.mem_cons_of_mem _ (ih ht.2 w h d hd)

lemma chain'_succ {R : String → String → Prop} :
    ∀ (l : List String), List.Chain' R l → ∀ x ∈ l,
      (∃ y, R x y) ∨ l.getLast? = some x := by
  intro l
  induction l with
  | nil => intro _ x hx; simp at hx
  | cons a t ih =>
    intro hch x hx
    cases t with
    | nil =>
      simp only [List.mem_singleton] at hx
      subst hx
      right; rfl
    | cons b t' =>
      rcases List.mem_cons.1 hx with h | h
      · subst h
        exact Or.inl ⟨b, (List.chain'_cons.1 hch).1⟩
      · rcases ih (List.chain'_cons.1 hch).2 x h with hy | hl
        · exact Or.inl hy
        · right
          rw [List.getLast?_cons_cons]
          exact hl

lemma chain'_pred {R : String → String → Prop} :
    ∀ (a : String) (l : List String), List.Chain' R (a :: l) → ∀ x ∈ l,
      ∃ w ∈ a :: l, R w x := by
  intro a l
  induction l generalizing a with
  | nil => intro _ x hx; simp at hx
  | cons b t ih =>
    intro hch x hx
    rcases List.mem_cons.1 hx with h | h
    · subst h
      exact ⟨a, List.mem_cons_self .., (List.chain'_cons.1 hch).1⟩
    · obtain ⟨w, hw, hr⟩ := ih b (List.chain'_cons.1 hch).2 x h
      exact ⟨w, List.mem_cons_of_mem _ hw, hr⟩

lemma isCycleF_outgoing (deps : String → List String) (c : List String)
    (h : IsCycleF deps c) : ∀ x ∈ c, ∃ y, y ∈ deps x := by
  cases c with
  | nil => exact h.elim
  | cons a l =>
    obtain ⟨hch, hcl⟩ := h
    intro x hx
    rcases chain'_succ (a :: l) hch x hx with hy | hl
    · exact hy
    · have hx' : (a :: l).getLast (List.cons_ne_nil a l) = x := by
        have h2 := List.getLast?_eq_getLast (a :: l) (List.cons_ne_nil a l)
        rw [hl] at h2
        exact (Option.some.inj h2).symm
      exact ⟨a, hx' ▸ hcl⟩

lemma isCycleF_incoming (deps : String → List String) (c : List String)
    (h : IsCycleF deps c) : ∀ x ∈ c, ∃ w ∈ c, x ∈ deps w := by
  cases c with
  | nil => exact h.elim
  | cons a l =>
    obtain ⟨hch, hcl⟩ := h
    intro x hx
    rcases List.mem_cons.1 hx with hxa | hxl
    · exact ⟨(a :: l).getLast (List.cons_ne_nil a l), List.getLast_mem _, hxa ▸ hcl⟩
    · obtain ⟨w, hw, hr⟩ := chain'_pred a l hch x hxl
      exact ⟨w, hw, hr⟩

lemma topo_no_cycle (deps : String → List String) :
    ∀ (f : List String), TopoSorted deps f →
      ∀ (c : List String), (∀ x ∈ c, x ∈ f) → ¬ IsCycleF deps c := by
  intro f
  induction f with
  | nil =>
    intro _ c hc hcyc
    cases c with
    | nil => exact hcyc
    | cons a l => exact absurd (hc a (List.mem_cons_self ..)) (List.not_mem_nil a)
  | cons u rest ih =>
    intro ht c hc hcyc
    by_cases hall : ∀ x ∈ c, x ∈ rest
    · exact ih ht.2 c hall hcyc
    · push_neg at hall
      obtain ⟨x, hx, hxr⟩ := hall
      obtain ⟨w, hw, hwx⟩ := isCycleF_incoming deps c hcyc x hx
      rcases List.mem_cons.1 (hc w hw) with hwu | hwr
      · exact absurd (ht.1 x (hwu ▸ hwx)) hxr
      · exact absurd (topoSorted_mem_deps deps rest ht.2 w hwr x hwx) hxr

lemma extractCycle_ne_nil (path : List String) (dep : String) (h : dep ∈ path) :
    extractCycle path dep ≠ [] := by
  rw [extractCycle]
  by_cases he : (path.dropWhile (fun n => !(n == dep))).isEmpty
  · exfalso
    have hnil := List.isEmpty_iff.1 he
    have := List.dropWhile_eq_nil_iff.1 hnil dep h
    simp at this
  · rw [if_neg he]
    simp

lemma dfsDeps_complete (deps : String → List String) (univ : List String) (B : Nat)
    (visitF : String → DfsState → DfsState)
    (hv : CompleteVisitSpec deps univ B visitF) :
    ∀ (ds : List String) (s : DfsState), CInv deps s → (∀ d ∈ ds, d ∈ univ) →
      cntUnvisited univ s.visited ≤ B →
      (dfsDeps visitF ds s).path = s.path ∧
      (dfsDeps visitF ds s).recStack = s.recStack ∧
      (∀ x ∈ s.visited, x ∈ (dfsDeps visitF ds s).visited) ∧
      ((dfsDeps visitF ds s).cycles = [] → s.cycles = []) ∧
      CInv deps (dfsDeps visitF ds s) ∧
      ((dfsDeps visitF ds s).cycles = [] →
        ∀ d ∈ ds, d ∈ (dfsDeps visitF ds s).visited ∧
          d ∉ (dfsDeps visitF ds s).recStack) := by
  intro ds
  induction ds with
  | nil =>
    intro s hs _ _
    exact ⟨rfl, rfl, fun x hx => hx, fun h => h, hs,
      fun _ d hd => absurd hd (List.not_mem_nil d)⟩
  | cons dep rest ih =>
    intro s hs hdu hcnt
    have heq : dfsDeps visitF (dep :: rest) s = dfsDeps visitF rest
        (if dep ∉ s.visited then visitF dep s
         else if dep ∈ s.recStack then
           { s with cycles := s.cycles ++ extractCycle s.path dep }
         else s) := rfl
    rw [heq]
    by_cases h1 : dep ∉ s.visited
    · rw [if_pos h1]
      obtain ⟨p1, p2, p3, p4, p5, p6⟩ :=
        hv dep s hs (hdu dep (List.mem_cons_self ..)) h1 hcnt
      have hcnt' : cntUnvisited univ (visitF dep s).visited ≤ B :=
        le_trans (cnt_mono univ _ _ p3) hcnt
      obtain ⟨q1, q2, q3, q4, q5, q6⟩ := ih (visitF dep s) p6
        (fun d hd => hdu d (List.mem_cons_of_mem _ hd)) hcnt'
      refine ⟨q1.trans p1, q2.trans p2, fun x hx => q3 x (p3 x hx),
        fun h => p5 (q4 h), q5, ?_⟩
      intro hcyc d hd
      rcases List.mem_cons.1 hd with hde | hde
      · subst hde
        refine ⟨q3 d p4, ?_⟩
        rw [q2, p2]
        exact fun hc => h1 (hs.2.1 d hc)
      · exact q6 hcyc d hde
    · rw [if_neg h1]
      push_neg at h1
      by_cases h2 : dep ∈ s.recStack
      · rw [if_pos h2]
        have hne := extractCycle_ne_nil s.path dep ((hs.1 dep).1 h2)
        have hplus : CInv deps { s with cycles := s.cycles ++ extractCycle s.path dep } := by
          refine ⟨hs.1, hs.2.1, ?_⟩
          intro hc
          exact absurd (List.append_eq_nil.1 hc).2 hne
        obtain ⟨q1, q2, q3, q4, q5, q6⟩ := ih _ hplus
          (fun d hd => hdu d (List.mem_cons_of_mem _ hd)) hcnt
        refine ⟨q1, q2, q3, ?_, q5, ?_⟩
        · intro h
          exact absurd (List.append_eq_nil.1 (q4 h)).2 hne
        · intro hcyc d hd
          exact absurd (List.append_eq_nil.1 (q4 hcyc)).2 hne
      · rw [if_neg h2]
        obtain ⟨q1, q2, q3, q4, q5, q6⟩ := ih s hs
          (fun d hd => hdu d (List.mem_cons_of_mem _ hd)) hcnt
        refine ⟨q1, q2, q3, q4, q5, ?_⟩
        intro hcyc d hd
        rcases List.mem_cons.1 hd with hde | hde
        · subst hde
          refine ⟨q3 d h1, ?_⟩
          rw [q2]
          exact h2
        · exact q6 hcyc d hde

lemma dfsVisit_finish_complete (deps : String → List String) (d : String)
    (st s2 : DfsState)
    (hq1 : s2.path = st.path ++ [d]) (hq2 : s2.recStack = d :: st.recStack)
    (hq3 : ∀ x ∈ d :: st.visited, x ∈ s2.visited)
    (hq4 : s2.cycles = [] → st.cycles = [])
    (hq5 : CInv deps s2)
    (hq6 : s2.cycles = [] → ∀ t ∈ deps d, t ∈ s2.visited ∧ t ∉ s2.recStack)
    (hs : CInv deps st) (hnv : d ∉ st.visited) :
    (⟨s2.visited, s2.recStack.erase d, s2.path.dropLast, s2.cycles⟩ : DfsState).path
        = st.path ∧
    (⟨s2.visited, s2.recStack.erase d, s2.path.dropLast, s2.cycles⟩ : DfsState).recStack
        = st.recStack ∧
    (∀ x ∈ st.visited,
      x ∈ (⟨s2.visited, s2.recStack.erase d, s2.path.dropLast, s2.cycles⟩ : DfsState).visited) ∧
    d ∈ (⟨s2.visited, s2.recStack.erase d, s2.path.dropLast, s2.cycles⟩ : DfsState).visited ∧
    ((⟨s2.visited, s2.recStack.erase d, s2.path.dropLast, s2.cycles⟩ : DfsState).cycles = []
      → st.cycles = []) ∧
    CInv deps ⟨s2.visited, s2.recStack.erase d, s2.path.dropLast, s2.cycles⟩ := by
  have hrec : s2.recStack.erase d = st.recStack := by
    rw [hq2]; exact List.erase_cons_head d st.recStack
  have hpath : s2.path.dropLast = st.path := by
    rw [hq1]; exact List.dropLast_concat ..
  refine ⟨hpath, hrec, fun x hx => hq3 x (List.mem_cons_of_mem _ hx),
    hq3 d (List.mem_cons_self ..), hq4, ?_, ?_, ?_⟩
  · show ∀ x, x ∈ s2.recStack.erase d ↔ x ∈ s2.path.dropLast
    rw [hrec, hpath]
    exact hs.1
  · show ∀ x ∈ s2.recStack.erase d, x ∈ s2.visited
    rw [hrec]
    exact fun x hx => hq3 x (List.mem_cons_of_mem _ (hs.2.1 x hx))
  · show s2.cycles = [] → ∃ f, (∀ x, x ∈ f ↔ (x ∈ s2.visited ∧ x ∉ s2.recStack.erase d)) ∧
      TopoSorted deps f
    intro hcyc
    obtain ⟨f, hf, hft⟩ := hq5.2.2 hcyc
    refine ⟨d :: f, ?_, ?_, hft⟩
    · intro x
      rw [hrec]
      constructor
      · intro hx
        rcases List.mem_cons.1 hx with h | h
        · subst h
          exact ⟨hq3 x (List.mem_cons_self ..), fun hc => hnv (hs.2.1 x hc)⟩
        · obtain ⟨hv1, hv2⟩ := (hf x).1 h
          rw [hq2] at hv2
          exact ⟨hv1, fun hc => hv2 (List.mem_cons_of_mem _ hc)⟩
      · rintro ⟨hxv, hxr⟩
        by_cases hxd : x = d
        · subst hxd; exact List.mem_cons_self ..
        · refine List.mem_cons_of_mem _ ((hf x).2 ⟨hxv, ?_⟩)
          rw [hq2]
          intro hc
          rcases List.mem_cons.1 hc with h | h
          · exact hxd h
          · exact hxr h
    · intro t ht
      exact (hf t).2 (hq6 hcyc t ht)

lemma dfsVisit_complete (deps : String → List String) (univ : List String)
    (hclosed : ∀ x, ∀ d ∈ deps x, d ∈ univ) :
    ∀ fuel, CompleteVisitSpec deps univ fuel (fun d st => dfsVisit deps fuel d st) := by
  intro fuel
  induction fuel with
  | zero =>
    intro d st hs hd hnv hcnt
    exact absurd hcnt (by have := cnt_cons_lt univ st.visited d hd hnv; omega)
  | succ fuel ih =>
    intro d st hs hd hnv hcnt
    have hinv1 : CInv deps ⟨d :: st.visited, d :: st.recStack, st.path ++ [d], st.cycles⟩ := by
      refine ⟨?_, ?_, ?_⟩
      · intro x
        show x ∈ d :: st.recStack ↔ x ∈ st.path ++ [d]
        simp only [List.mem_cons, List.mem_append, List.mem_singleton]
        rw [hs.1 x]
        tauto
      · intro x hx
        rcases List.mem_cons.1 hx with h | h
        · subst h; exact List.mem_cons_self ..
        · exact List.mem_cons_of_mem _ (hs.2.1 x h)
      · intro hcyc
        obtain ⟨f, hf, hft⟩ := hs.2.2 hcyc
        refine ⟨f, ?_, hft⟩
        intro x
        show x ∈ f ↔ (x ∈ d :: st.visited ∧ x ∉ d :: st.recStack)
        rw [hf x]
        simp only [List.mem_cons, not_or]
        constructor
        · rintro ⟨hv, hr⟩
          refine ⟨Or.inr hv, ?_, hr⟩
          intro hxd
          exact hnv (hxd ▸ hv)
        · rintro ⟨hv, hd2, hr⟩
          rcases hv with h | h
          · exact absurd h hd2
          · exact ⟨h, hr⟩
    have hcnt1 : cntUnvisited univ (d :: st.visited) ≤ fuel := by
      have := cnt_cons_lt univ st.visited d hd hnv
      omega
    obtain ⟨q1, q2, q3, q4, q5, q6⟩ := dfsDeps_complete deps univ fuel _ ih (deps d)
      ⟨d :: st.visited, d :: st.recStack, st.path ++ [d], st.cycles⟩ hinv1
      (fun t ht => hclosed d t ht) hcnt1
    exact dfsVisit_finish_complete deps d st _ q1 q2 q3 q4 q5 q6 hs hnv

lemma detectLoop_complete (deps : String → List String) (univ : List String) (fuel : Nat)
    (hv : CompleteVisitSpec deps univ fuel (fun d st => dfsVisit deps fuel d st)) :
    ∀ (roots : List String) (s : DfsState), CInv deps s → s.recStack = [] →
      (∀ r ∈ roots, r ∈ univ) → cntUnvisited univ s.visited ≤ fuel →
      (detectLoop deps fuel roots s).recStack = [] ∧
      (∀ x ∈ s.visited, x ∈ (detectLoop deps fuel roots s).visited) ∧
      ((detectLoop deps fuel roots s).cycles = [] → s.cycles = []) ∧
      CInv deps (detectLoop deps fuel roots s) ∧
      ((detectLoop deps fuel roots s).cycles = [] →
        ∀ r ∈ roots, r ∈ (detectLoop deps fuel roots s).visited) := by
  intro roots
  induction roots with
  | nil =>
    intro s hs hrec _ _
    exact ⟨hrec, fun x hx => hx, fun h => h, hs,
      fun _ r hr => absurd hr (List.not_mem_nil r)⟩
  | cons n rest ih =>
    intro s hs hrec hru hcnt
    rw [detectLoop]
    by_cases hn : n ∈ s.visited
    · rw [if_pos hn]
      obtain ⟨w1, w2, w3, w4, w5⟩ := ih s hs hrec
        (fun r hr => hru r (List.mem_cons_of_mem _ hr)) hcnt
      refine ⟨w1, w2, w3, w4, ?_⟩
      intro hcyc r hr
      rcases List.mem_cons.1 hr with h | h
      · exact w2 r (h ▸ hn)
      · exact w5 hcyc r h
    · rw [if_neg hn]
      obtain ⟨p1, p2, p3, p4, p5, p6⟩ := hv n s hs (hru n (List.mem_cons_self ..)) hn hcnt
      have hrec' : (dfsVisit deps fuel n s).recStack = [] := p2.trans hrec
      have hcnt' : cntUnvisited univ (dfsVisit deps fuel n s).visited ≤ fuel :=
        le_trans (cnt_mono univ _ _ p3) hcnt
      obtain ⟨w1, w2, w3, w4, w5⟩ := ih _ p6 hrec'
        (fun r hr => hru r (List.mem_cons_of_mem _ hr)) hcnt'
      refine ⟨w1, fun x hx => w2 x (p3 x hx), fun h => p5 (w3 h), w4, ?_⟩
      intro hcyc r hr
      rcases List.mem_cons.1 hr with h | h
      · exact w2 r (h ▸ p4)
      · exact w5 hcyc r h

lemma detectCycles_complete (g : DependencyGraph) (hWF : WF g)
    (h : g.DetectCycles = []) : g.Acyclic := by
  have hclosed : ∀ x, ∀ d ∈ g.GetDependencies x, d ∈ g.nodes := by
    intro x d hd
    rw [DependencyGraph.GetDependencies] at hd
    obtain ⟨p, hp, -, hdp⟩ := mem_lookupAdj g.adj x d hd
    exact hWF.2.2.2.2 p hp d hdp
  have hkey : ∀ x, g.GetDependencies x ≠ [] → x ∈ g.nodes := by
    intro x hx
    rw [DependencyGraph.GetDependencies] at hx
    obtain ⟨d, hd⟩ := List.exists_mem_of_ne_nil _ hx
    obtain ⟨p, hp, hp1, -⟩ := mem_lookupAdj g.adj x d hd
    exact hp1 ▸ hWF.2.2.1 p hp
  have hinv0 : CInv g.GetDependencies initialDfsState := by
    refine ⟨?_, ?_, ?_⟩
    · intro x; simp [initialDfsState]
    · intro x hx; simp [initialDfsState] at hx
    · intro _
      refine ⟨[], ?_, trivial⟩
      intro x; simp [initialDfsState]
  have hcnt0 : cntUnvisited g.nodes initialDfsState.visited ≤ g.nodes.length :=
    List.countP_le_length _
  obtain ⟨w1, w2, w3, w4, w5⟩ := detectLoop_complete g.GetDependencies g.nodes
    g.nodes.length
    (dfsVisit_complete g.GetDependencies g.nodes hclosed g.nodes.length)
    g.nodes initialDfsState hinv0 rfl (fun r hr => hr) hcnt0
  rw [DependencyGraph.DetectCycles] at h
  obtain ⟨f, hf, hft⟩ := w4.2.2 h
  have hnf : ∀ n ∈ g.nodes, n ∈ f := by
    intro n hn
    refine (hf n).2 ⟨w5 h n hn, ?_⟩
    rw [w1]
    exact List.not_mem_nil n
  intro c hcyc
  rw [DependencyGraph.IsCycle] at hcyc
  have hcf : ∀ x ∈ c, x ∈ f := by
    intro x hx
    obtain ⟨y, hy⟩ := isCycleF_outgoing g.GetDependencies c hcyc x hx
    have hne : g.GetDependencies x ≠ [] := by
      intro hnil
      rw [hnil] at hy
      exact List.not_mem_nil y hy
    exact hnf x (hkey x hne)
  exact topo_no_cycle g.GetDependencies f hft c hcf hcyc

/-- C3: `DetectCycles` returns the empty list if and only if the
(well-formed) graph is acyclic — for every acyclic graph, including the
empty graph, the result is empty, and for every graph containing a cycle
the result is non-empty. -/
theorem claim_C3 (g : DependencyGraph) (hWF : WF g) :
    g.DetectCycles = [] ↔ g.Acyclic := by
  constructor
  · exact detectCycles_complete g hWF
  · intro hac
    by_contra hne
    obtain ⟨c, hc⟩ := List.exists_mem_of_ne_nil _ hne
    exact hac c (detectCycles_sound g c hc)

theorem claim_C3_witness :
    WF ⟨["A", "B"], [("A", ["B"]), ("B", [])]⟩ ∧
    ((DependencyGraph.DetectCycles ⟨["A", "B"], [("A", ["B"]), ("B", [])]⟩ = []) ↔
      DependencyGraph.Acyclic ⟨["A", "B"], [("A", ["B"]), ("B", [])]⟩) :=
  ⟨⟨by decide, by decide, by decide, by decide, by decide⟩,
    claim_C3 ⟨["A", "B"], [("A", ["B"]), ("B", [])]⟩
      ⟨by decide, by decide, by decide, by decide, by decide⟩⟩

/-- C1: `DetectCycles` is NOT invariant under the (unspecified) Go map
iteration order.  The graphs below have the same node set (the node lists
are permutations of each other) and literally the same adjacency, yet
iterating the roots as A, B, C reports two cycles (`[A,B,C]` and `[A,B]`)
while iterating as B, A, C reports one (`[B,C,A]`); consequently the
part_001 scorer computes `CircularCount` 2 vs 1 and `TotalScore` 80 vs 90
on the same dependency graph, refuting the determinism claim (the spec
itself, §9, demands sorted iteration as a required correction). -/
theorem claim_C1 :
    ((["A", "B", "C"] : List String).Perm ["B", "A", "C"] ∧
      (DependencyGraph.mk ["A", "B", "C"]
          [("A", ["B"]), ("B", ["C", "A"]), ("C", ["A"])]).adj =
        (DependencyGraph.mk ["B", "A", "C"]
          [("A", ["B"]), ("B", ["C", "A"]), ("C", ["A"])]).adj) ∧
    (DependencyGraph.DetectCycles
        ⟨["A", "B", "C"], [("A", ["B"]), ("B", ["C", "A"]), ("C", ["A"])]⟩ =
      [["A", "B", "C"], ["A", "B"]]) ∧
    (DependencyGraph.DetectCycles
        ⟨["B", "A", "C"], [("A", ["B"]), ("B", ["C", "A"]), ("C", ["A"])]⟩ =
      [["B", "C", "A"]]) ∧
    (AnalyzeGraphScore
        ⟨["A", "B", "C"], [("A", ["B"]), ("B", ["C", "A"]), ("C", ["A"])]⟩ 0 0).CircularCount
      = 2 ∧
    (AnalyzeGraphScore
        ⟨["B", "A", "C"], [("A", ["B"]), ("B", ["C", "A"]), ("C", ["A"])]⟩ 0 0).CircularCount
      = 1 ∧
    (AnalyzeGraphScore
        ⟨["A", "B", "C"], [("A", ["B"]), ("B", ["C", "A"]), ("C", ["A"])]⟩ 0 0).TotalScore
      = 80 ∧
    (AnalyzeGraphScore
        ⟨["B", "A", "C"], [("A", ["B"]), ("B", ["C", "A"]), ("C", ["A"])]⟩ 0 0).TotalScore
      = 90 := by
  have hc1 : (CircularDependencyRule.Check
      ⟨["A", "B", "C"], [("A", ["B"]), ("B", ["C", "A"]), ("C", ["A"])]⟩).length = 2 := by
    decide
  have hc2 : (CircularDependencyRule.Check
      ⟨["B", "A", "C"], [("A", ["B"]), ("B", ["C", "A"]), ("C", ["A"])]⟩).length = 1 := by
    decide
  have hl1 : (LayerValidationRule.Check
      ⟨["A", "B", "C"], [("A", ["B"]), ("B", ["C", "A"]), ("C", ["A"])]⟩).length = 0 := by
    decide
  have hl2 : (LayerValidationRule.Check
      ⟨["B", "A", "C"], [("A", ["B"]), ("B", ["C", "A"]), ("C", ["A"])]⟩).length = 0 := by
    decide
  refine ⟨⟨by decide, rfl⟩, by decide, by decide, ?_, ?_, ?_, ?_⟩
  · rw [AnalyzeGraphScore, hc1, hl1]; rfl
  · rw [AnalyzeGraphScore, hc2, hl2]; rfl
  · rw [AnalyzeGraphScore, hc1, hl1]
    norm_num [StructuralScorer.CalculateScore, DefaultScoringWeights]
  · rw [AnalyzeGraphScore, hc2, hl2]
    norm_num [StructuralScorer.CalculateScore, DefaultScoringWeights]

/-- C5: on the graph A↔B, `DetectCycles` returns exactly one cycle of
length 2 containing A and B, for every possible node-map iteration order
(every permutation of the node list); on the self-loop graph it returns
one cycle of length 1; on two node-disjoint 2-cycles it returns at least
two distinct cycles, again for every iteration order. -/
theorem claim_C5 :
    (∀ ns : List String, ns.Perm ["A", "B"] →
      (DependencyGraph.DetectCycles ⟨ns, [("A", ["B"]), ("B", ["A"])]⟩).length = 1 ∧
      ∀ c ∈ DependencyGraph.DetectCycles ⟨ns, [("A", ["B"]), ("B", ["A"])]⟩,
        c.length = 2 ∧ "A" ∈ c ∧ "B" ∈ c) ∧
    (DependencyGraph.DetectCycles ⟨["A"], [("A", ["A"])]⟩ = [["A"]]) ∧
    (∀ ns : List String, ns.Perm ["A", "B", "C", "D"] →
      ∃ c1 ∈ DependencyGraph.DetectCycles
          ⟨ns, [("A", ["B"]), ("B", ["A"]), ("C", ["D"]), ("D", ["C"])]⟩,
      ∃ c2 ∈ DependencyGraph.DetectCycles
          ⟨ns, [("A", ["B"]), ("B", ["A"]), ("C", ["D"]), ("D", ["C"])]⟩,
        c1 ≠ c2) := by
  refine ⟨?_, by decide, ?_⟩
  · have hall : ∀ ns ∈ (["A", "B"] : List String).permutations',
        (DependencyGraph.DetectCycles ⟨ns, [("A", ["B"]), ("B", ["A"])]⟩).length = 1 ∧
        ∀ c ∈ DependencyGraph.DetectCycles ⟨ns, [("A", ["B"]), ("B", ["A"])]⟩,
          c.length = 2 ∧ "A" ∈ c ∧ "B" ∈ c := by decide
    exact fun ns hp => hall ns (List.mem_permutations'.2 hp)
  · have hall : ∀ ns ∈ (["A", "B", "C", "D"] : List String).permutations',
        ∃ c1 ∈ DependencyGraph.DetectCycles
            ⟨ns, [("A", ["B"]), ("B", ["A"]), ("C", ["D"]), ("D", ["C"])]⟩,
        ∃ c2 ∈ DependencyGraph.DetectCycles
            ⟨ns, [("A", ["B"]), ("B", ["A"]), ("C", ["D"]), ("D", ["C"])]⟩,
          c1 ≠ c2 := by decide
    exact fun ns hp => hall ns (List.mem_permutations'.2 hp)

theorem claim_C5_witness :
    ((["B", "A"] : List String).Perm ["A", "B"] ∧
      (DependencyGraph.DetectCycles ⟨["B", "A"], [("A", ["B"]), ("B", ["A"])]⟩).length = 1) ∧
    ((["D", "C", "B", "A"] : List String).Perm ["A", "B", "C", "D"] ∧
      ∃ c1 ∈ DependencyGraph.DetectCycles
          ⟨["D", "C", "B", "A"], [("A", ["B"]), ("B", ["A"]), ("C", ["D"]), ("D", ["C"])]⟩,
      ∃ c2 ∈ DependencyGraph.DetectCycles
          ⟨["D", "C", "B", "A"], [("A", ["B"]), ("B", ["A"]), ("C", ["D"]), ("D", ["C"])]⟩,
        c1 ≠ c2) :=
  ⟨⟨by decide, (claim_C5.1 ["B", "A"] (by decide)).1⟩,
    ⟨by decide, claim_C5.2.2 ["D", "C", "B", "A"] (by decide)⟩⟩

/-! ## Layer validation characterisation (claim C7) -/

lemma countP_flatMap {α β : Type} (p : β → Bool) (f : α → List β) (l : List α) :
    (l.flatMap f).countP p = (l.map (fun x => (f x).countP p)).sum := by
  induction l with
  | nil => rfl
  | cons x rest ih =>
    rw [List.flatMap_cons, List.countP_append, List.map_cons, List.sum_cons, ih]

lemma sum_map_zero {α : Type} (F : α → Nat) (l : List α) (h : ∀ x ∈ l, F x = 0) :
    (l.map F).sum = 0 := by
  induction l with
  | nil => rfl
  | cons x rest ih =>
    rw [List.map_cons, List.sum_cons, h x (List.mem_cons_self ..),
      ih (fun y hy => h y (List.mem_cons_of_mem _ hy))]

lemma sum_map_single {α : Type} [DecidableEq α] (F : α → Nat) (a : α) :
    ∀ (ns : List α), ns.Nodup → (∀ n, n ≠ a → F n = 0) →
      (ns.map F).sum = if a ∈ ns then F a else 0 := by
  intro ns
  induction ns with
  | nil => intro _ _; simp
  | cons n rest ih =>
    intro hnd hz
    rw [List.map_cons, List.sum_cons]
    by_cases hna : n = a
    · subst hna
      have hnr : n ∉ rest := (List.nodup_cons.1 hnd).1
      rw [sum_map_zero F rest (fun x hx => hz x (fun hc => hnr (hc ▸ hx)))]
      rw [if_pos (List.mem_cons_self ..)]
      omega
    · rw [hz n hna, ih (List.nodup_cons.1 hnd).2 hz]
      by_cases har : a ∈ rest
      · rw [if_pos har, if_pos (List.mem_cons_of_mem _ har)]
        omega
      · have hcond : a ∉ n :: rest := by
          intro hc
          rcases List.mem_cons.1 hc with h | h
          · exact hna h.symm
          · exact har h
        rw [if_neg har, if_neg hcond]

lemma layer_inner_count (a b : String) :
    ∀ (ds : List String), ds.Nodup →
      ((ds.filterMap (fun dep =>
        if isUpwardImport (detectLayer a) (detectLayer dep) then
          some (⟨a, dep, formatLayerViolation a dep (detectLayer a) (detectLayer dep)⟩ :
            LayerViolation)
        else none)).countP (fun v => v.From == a && v.To == b))
      = if b ∈ ds ∧ isUpwardImport (detectLayer a) (detectLayer b) = true then 1 else 0 := by
  intro ds
  induction ds with
  | nil =>
    intro _
    simp
  | cons d rest ih =>
    intro hnd
    rw [List.filterMap_cons]
    have hrest := ih (List.nodup_cons.1 hnd).2
    have hbrest : d ∉ rest := (List.nodup_cons.1 hnd).1
    have hshift : d ≠ b →
        (if b ∈ d :: rest ∧ isUpwardImport (detectLayer a) (detectLayer b) = true
          then 1 else 0) =
        (if b ∈ rest ∧ isUpwardImport (detectLayer a) (detectLayer b) = true
          then 1 else 0) := by
      intro hdb
      by_cases hbr : b ∈ rest ∧ isUpwardImport (detectLayer a) (detectLayer b) = true
      · have hcond : b ∈ d :: rest ∧ isUpwardImport (detectLayer a) (detectLayer b)
            = true := ⟨List.mem_cons_of_mem _ hbr.1, hbr.2⟩
        rw [if_pos hbr, if_pos hcond]
      · have hcond : ¬ (b ∈ d :: rest ∧
            isUpwardImport (detectLayer a) (detectLayer b) = true) := by
          intro hc
          refine hbr ⟨?_, hc.2⟩
          rcases List.mem_cons.1 hc.1 with h | h
          · exact absurd h.symm hdb
          · exact h
        rw [if_neg hbr, if_neg hcond]
    by_cases hup : isUpwardImport (detectLayer a) (detectLayer d) = true
    · rw [if_pos hup, List.countP_cons, hrest]
      by_cases hdb : d = b
      · subst hdb
        have h1 : (if d ∈ rest ∧ isUpwardImport (detectLayer a) (detectLayer d) = true
            then 1 else 0) = 0 := if_neg (fun hc => hbrest hc.1)
        have hcond : d ∈ d :: rest ∧ isUpwardImport (detectLayer a) (detectLayer d)
            = true := ⟨List.mem_cons_self .., hup⟩
        have h2 : (if d ∈ d :: rest ∧ isUpwardImport (detectLayer a) (detectLayer d)
            = true then 1 else 0) = 1 := if_pos hcond
        rw [h1, h2]
        simp
      · have hp : ((⟨a, d, formatLayerViolation a d (detectLayer a) (detectLayer d)⟩ :
            LayerViolation).From == a &&
            (⟨a, d, formatLayerViolation a d (detectLayer a) (detectLayer d)⟩ :
              LayerViolation).To == b) = false := by
          simp [hdb]
        rw [hp, hshift hdb]
        simp
    · rw [if_neg hup, hrest]
      by_cases hdb : d = b
      · subst hdb
        have hc1 : ¬ (d ∈ rest ∧ isUpwardImport (detectLayer a) (detectLayer d) = true) :=
          fun hc => hbrest hc.1
        have hc2 : ¬ (d ∈ d :: rest ∧
            isUpwardImport (detectLayer a) (detectLayer d) = true) :=
          fun hc => hup hc.2
        rw [if_neg hc1, if_neg hc2]
      · rw [hshift hdb]

/-- C7: on a well-formed graph, `LayerValidationRule.Check` emits exactly
one violation for every edge (from, to) whose layers satisfy
rank(to) < rank(from) and none for any other pair; concretely, a
repo→service edge and a service→handler edge are each flagged once, while
the chain handler→service→repo produces zero violations. -/
theorem claim_C7 (g : DependencyGraph) (hWF : WF g) :
    (∀ a b : String,
      ((LayerValidationRule.Check g).countP (fun v => v.From == a && v.To == b))
        = if b ∈ g.GetDependencies a ∧
            isUpwardImport (detectLayer a) (detectLayer b) = true then 1 else 0) ∧
    ((LayerValidationRule.Check
      ⟨["project/repo/user_repo.go", "project/service/user_service.go"],
       [("project/repo/user_repo.go", ["project/service/user_service.go"]),
        ("project/service/user_service.go", [])]⟩).length = 1) ∧
    ((LayerValidationRule.Check
      ⟨["project/service/user_service.go", "project/handler/user_handler.go"],
       [("project/service/user_service.go", ["project/handler/user_handler.go"]),
        ("project/handler/user_handler.go", [])]⟩).length = 1) ∧
    ((LayerValidationRule.Check
      ⟨["project/handler/user_handler.go", "project/service/user_service.go",
        "project/repo/user_repo.go"],
       [("project/handler/user_handler.go", ["project/service/user_service.go"]),
        ("project/service/user_service.go", ["project/repo/user_repo.go"]),
        ("project/repo/user_repo.go", [])]⟩) = []) := by
  refine ⟨?_, by decide, by decide, by decide⟩
  intro a b
  rw [LayerValidationRule.Check, DependencyGraph.GetAllNodes, countP_flatMap]
  have hz : ∀ n, n ≠ a →
      ((g.GetDependencies n).filterMap (fun dep =>
        if isUpwardImport (detectLayer n) (detectLayer dep) then
          some (⟨n, dep, formatLayerViolation n dep (detectLayer n) (detectLayer dep)⟩ :
            LayerViolation)
        else none)).countP (fun v => v.From == a && v.To == b) = 0 := by
    intro n hn
    rw [List.countP_eq_zero]
    intro v hv
    obtain ⟨dep, -, hdep⟩ := List.mem_filterMap.1 hv
    by_cases hup : isUpwardImport (detectLayer n) (detectLayer dep) = true
    · rw [if_pos hup] at hdep
      have hv' := Option.some.inj hdep
      rw [← hv']
      simp [hn]
    · rw [if_neg hup] at hdep
      exact Option.noConfusion hdep
  rw [sum_map_single _ a g.nodes hWF.1 hz]
  by_cases ha : a ∈ g.nodes
  · rw [if_pos ha]
    have hdnd : (g.GetDependencies a).Nodup := by
      rw [DependencyGraph.GetDependencies]
      rcases hlk : lookupAdj g.adj a with - | ⟨d, ds⟩
      · exact List.nodup_nil
      · have hne : lookupAdj g.adj a ≠ [] := by rw [hlk]; exact List.cons_ne_nil d ds
        obtain ⟨x, hx⟩ := List.exists_mem_of_ne_nil _ hne
        obtain ⟨p, hp, hp1, -⟩ := mem_lookupAdj g.adj a x hx
        have := lookupAdj_of_mem g.adj p hWF.2.1 hp
        rw [hp1] at this
        rw [← hlk, this]
        exact hWF.2.2.2.1 p hp
    exact layer_inner_count a b (g.GetDependencies a) hdnd
  · rw [if_neg ha]
    have hdeps : g.GetDependencies a = [] := by
      rw [DependencyGraph.GetDependencies]
      refine lookupAdj_eq_nil_of_not_key g.adj a ?_
      intro hc
      obtain ⟨p, hp, hpa⟩ := List.mem_map.1 hc
      exact ha (hpa ▸ hWF.2.2.1 p hp)
    rw [if_neg]
    intro hc
    rw [hdeps] at hc
    exact List.not_mem_nil b hc.1

theorem claim_C7_witness :
    WF ⟨["project/repo/user_repo.go", "project/service/user_service.go"],
       [("project/repo/user_repo.go", ["project/service/user_service.go"]),
        ("project/service/user_service.go", [])]⟩ ∧
    ((LayerValidationRule.Check
      ⟨["project/repo/user_repo.go", "project/service/user_service.go"],
       [("project/repo/user_repo.go", ["project/service/user_service.go"]),
        ("project/service/user_service.go", [])]⟩).countP
        (fun v => v.From == "project/repo/user_repo.go" &&
          v.To == "project/service/user_service.go")) = 1 := by
  have hWF : WF ⟨["project/repo/user_repo.go", "project/service/user_service.go"],
       [("project/repo/user_repo.go", ["project/service/user_service.go"]),
        ("project/service/user_service.go", [])]⟩ :=
    ⟨by decide, by decide, by decide, by decide, by decide⟩
  refine ⟨hWF, ?_⟩
  rw [(claim_C7 _ hWF).1 "project/repo/user_repo.go" "project/service/user_service.go"]
  rw [if_pos]
  exact ⟨by decide, by decide⟩

/-! ## Layer keyword scanning vs segment splitting (claim C6) -/

lemma segments_head_tail (l : List Char) :
    segments l = l.takeWhile (fun c => !(isSepChar c)) ::
      (if _h : l.dropWhile (fun c => !(isSepChar c)) = [] then []
       else segments ((l.dropWhile (fun c => !(isSepChar c))).tail)) := by
  rw [segments]

lemma segments_tail (l : List Char) :
    (segments l).tail =
      (if _h : l.dropWhile (fun c => !(isSepChar c)) = [] then []
       else segments ((l.dropWhile (fun c => !(isSepChar c))).tail)) := by
  rw [segments_head_tail]
  rfl

lemma segments_shape (l : List Char) :
    segments l = l.takeWhile (fun c => !(isSepChar c)) :: (segments l).tail := by
  rw [segments_tail, segments_head_tail]

lemma segments_tail_cons_sep (c : Char) (l' : List Char) (h : isSepChar c = true) :
    (segments (c :: l')).tail = segments l' := by
  rw [segments_tail]
  have hd : (c :: l').dropWhile (fun x => !(isSepChar x)) = c :: l' := by
    rw [List.dropWhile_cons]
    simp [h]
  rw [hd, dif_neg (List.cons_ne_nil c l')]
  rfl

lemma segments_cons_nonsep (c : Char) (l' : List Char) (h : isSepChar c = false) :
    segments (c :: l') =
      (c :: l'.takeWhile (fun x => !(isSepChar x))) :: (segments l').tail := by
  rw [segments_head_tail]
  have hd : (c :: l').dropWhile (fun x => !(isSepChar x)) =
      l'.dropWhile (fun x => !(isSepChar x)) := by
    rw [List.dropWhile_cons]
    simp [h]
  have ht : (c :: l').takeWhile (fun x => !(isSepChar x)) =
      c :: l'.takeWhile (fun x => !(isSepChar x)) := by
    rw [List.takeWhile_cons]
    simp [h]
  rw [hd, ht, ← segments_tail]

lemma takeWhile_append_all {p : Char → Bool} (A B : List Char)
    (hA : ∀ x ∈ A, p x = true) : (A ++ B).takeWhile p = A ++ B.takeWhile p := by
  induction A with
  | nil => rfl
  | cons a A' ih =>
    rw [List.cons_append, List.takeWhile_cons, if_pos (hA a (List.mem_cons_self ..)),
      ih (fun x hx => hA x (List.mem_cons_of_mem _ hx)), List.cons_append]

lemma BMstart_iff (kw : List Char) (hksep : ∀ c ∈ kw, isSepChar c = false)
    (l : List Char) :
    BMstart kw l ↔ kw = l.takeWhile (fun c => !(isSepChar c)) := by
  constructor
  · rintro ⟨post, hpost, hb⟩
    subst hpost
    have hA : ∀ x ∈ kw, (!(isSepChar x)) = true := fun x hx => by simp [hksep x hx]
    rw [takeWhile_append_all kw post hA]
    rcases hb with hb | ⟨c, post', hb, hc⟩
    · subst hb; simp
    · subst hb
      rw [List.takeWhile_cons]
      simp [hc]
  · intro hkw
    refine ⟨l.dropWhile (fun c => !(isSepChar c)), ?_, ?_⟩
    · rw [hkw]
      exact (List.takeWhile_append_dropWhile _ l).symm
    · rcases hd : l.dropWhile (fun c => !(isSepChar c)) with - | ⟨c, post'⟩
      · exact Or.inl rfl
      · right
        refine ⟨c, post', rfl, ?_⟩
        have := dropWhile_head_false (fun c => !(isSepChar c)) l c post' hd
        simpa using this

lemma cons_eq_append_single {α : Type} (c0 : α) (pre2 pre' : List α) (cl : α)
    (h : c0 :: pre2 = pre' ++ [cl]) (hne : pre2 ≠ []) :
    ∃ pre3, pre2 = pre3 ++ [cl] := by
  cases pre' with
  | nil =>
    simp only [List.nil_append, List.cons.injEq] at h
    exact absurd h.2 hne
  | cons p0 p1 =>
    rw [List.cons_append] at h
    exact ⟨p1, (List.cons.inj h).2⟩

lemma BMmid_lift_sep (kw : List Char) (c : Char) (hc : isSepChar c = true)
    (l' : List Char) : BMmid kw (c :: l') ↔ (BMstart kw l' ∨ BMmid kw l') := by
  constructor
  · rintro ⟨pre, post, hdecomp, ⟨cl, pre', hpre, hcl⟩, hb⟩
    have hpne : pre ≠ [] := by rw [hpre]; simp
    rcases hpree : pre with - | ⟨c0, pre2⟩
    · exact absurd hpree hpne
    · rw [hpree, List.cons_append] at hdecomp
      obtain ⟨-, hl'⟩ := List.cons.inj hdecomp
      rcases hp2 : pre2 with - | ⟨p0, p1⟩
      · left
        rw [hp2] at hl'
        exact ⟨post, hl', hb⟩
      · right
        rw [hpree, hp2] at hpre
        obtain ⟨pre3, hpre3⟩ :=
          cons_eq_append_single c0 (p0 :: p1) pre' cl hpre (List.cons_ne_nil p0 p1)
        rw [hp2] at hl'
        exact ⟨p0 :: p1, post, hl', ⟨cl, pre3, hpre3, hcl⟩, hb⟩
  · rintro (⟨post, hdecomp, hb⟩ | ⟨pre, post, hdecomp, ⟨cl, pre', hpre, hcl⟩, hb⟩)
    · refine ⟨[c], post, ?_, ⟨c, [], rfl, hc⟩, hb⟩
      rw [hdecomp]
      rfl
    · refine ⟨c :: pre, post, ?_, ⟨cl, c :: pre', ?_, hcl⟩, hb⟩
      · rw [hdecomp]
        rfl
      · rw [hpre]
        rfl

lemma BMmid_lift_nonsep (kw : List Char) (c : Char) (hc : isSepChar c = false)
    (l' : List Char) : BMmid kw (c :: l') ↔ BMmid kw l' := by
  constructor
  · rintro ⟨pre, post, hdecomp, ⟨cl, pre', hpre, hcl⟩, hb⟩
    have hpne : pre ≠ [] := by rw [hpre]; simp
    rcases hpree : pre with - | ⟨c0, pre2⟩
    · exact absurd hpree hpne
    · rw [hpree, List.cons_append] at hdecomp
      obtain ⟨hc0, hl'⟩ := List.cons.inj hdecomp
      rcases hp2 : pre2 with - | ⟨p0, p1⟩
      · exfalso
        rw [hpree, hp2] at hpre
        have hclc0 : cl = c0 := by
          cases pre' with
          | nil =>
            rw [List.nil_append] at hpre
            exact (List.cons.inj hpre).1.symm
          | cons q0 q1 =>
            rw [List.cons_append] at hpre
            have h2 := (List.cons.inj hpre).2
            exact absurd h2.symm (by simp)
        rw [hclc0, ← hc0] at hcl
        rw [hcl] at hc
        exact Bool.noConfusion hc
      · rw [hpree, hp2] at hpre
        obtain ⟨pre3, hpre3⟩ :=
          cons_eq_append_single c0 (p0 :: p1) pre' cl hpre (List.cons_ne_nil p0 p1)
        rw [hp2] at hl'
        exact ⟨p0 :: p1, post, hl', ⟨cl, pre3, hpre3, hcl⟩, hb⟩
  · rintro ⟨pre, post, hdecomp, ⟨cl, pre', hpre, hcl⟩, hb⟩
    refine ⟨c :: pre, post, ?_, ⟨cl, c :: pre', ?_, hcl⟩, hb⟩
    · rw [hdecomp]
      rfl
    · rw [hpre]
      rfl

lemma BMmid_iff_tail (kw : List Char) (hksep : ∀ c ∈ kw, isSepChar c = false) :
    ∀ l : List Char, BMmid kw l ↔ kw ∈ (segments l).tail := by
  intro l
  induction l with
  | nil =>
    constructor
    · rintro ⟨pre, post, hdecomp, ⟨cl, pre', hpre, -⟩, -⟩
      have := (List.append_eq_nil.1 hdecomp.symm).1
      rw [hpre] at this
      exact absurd this (by simp)
    · intro hm
      rw [segments_tail] at hm
      simp at hm
  | cons c l' ih =>
    by_cases hc : isSepChar c = true
    · rw [BMmid_lift_sep kw c hc l', segments_tail_cons_sep c l' hc]
      rw [segments_shape l', List.mem_cons]
      rw [← BMstart_iff kw hksep l', ← ih]
    · have hc' : isSepChar c = false := Bool.eq_false_iff.2 hc
      rw [BMmid_lift_nonsep kw c hc' l', ih, segments_cons_nonsep c l' hc',
        List.tail_cons]

lemma BM_iff_segments (kw : List Char) (hksep : ∀ c ∈ kw, isSepChar c = false)
    (l : List Char) : (BMstart kw l ∨ BMmid kw l) ↔ kw ∈ segments l := by
  conv_rhs => rw [segments_shape l]
  rw [List.mem_cons, ← BMstart_iff kw hksep l, ← BMmid_iff_tail kw hksep l]

lemma sepAt_iff (path : List Char) (j : Nat) :
    sepAt path j = true ↔ ∃ c, path[j]? = some c ∧ isSepChar c = true := by
  rw [sepAt]
  rcases h : path[j]? with - | c
  · simp
  · simp

lemma drop_cons_of_getElem {α : Type} (l : List α) (j : Nat) (c : α)
    (h : l[j]? = some c) : l.drop j = c :: l.drop (j + 1) := by
  obtain ⟨hj, he⟩ := List.getElem?_eq_some.1 h
  rw [List.drop_eq_getElem_cons hj, he]

lemma contains_iff_BM (kw path : List Char) :
    containsLayerKeyword path kw = true ↔ (BMstart kw path ∨ BMmid kw path) := by
  rw [containsLayerKeyword]
  by_cases hlen : kw.length ≤ path.length
  · rw [if_pos hlen, List.any_eq_true]
    constructor
    · rintro ⟨i, hir, hf⟩
      rw [List.mem_range] at hir
      simp only [Bool.and_eq_true, Bool.or_eq_true, beq_iff_eq] at hf
      obtain ⟨⟨hmatch, hpre⟩, hpost⟩ := hf
      have hik : i + kw.length ≤ path.length := by omega
      have hdecomp : path = path.take i ++ kw ++ path.drop (i + kw.length) := by
        conv_lhs => rw [← List.take_append_drop i path]
        rw [List.append_assoc]
        congr 1
        conv_lhs => rw [← List.take_append_drop kw.length (path.drop i)]
        rw [hmatch, List.drop_drop]
      have hpostB : path.drop (i + kw.length) = [] ∨
          ∃ c post', path.drop (i + kw.length) = c :: post' ∧ isSepChar c = true := by
        rcases hpost with h | h
        · left
          rw [h]
          exact List.drop_length path
        · right
          obtain ⟨c, hcg, hcsep⟩ := (sepAt_iff path _).1 h
          exact ⟨c, path.drop (i + kw.length + 1),
            drop_cons_of_getElem path _ c hcg, hcsep⟩
      rcases Nat.eq_zero_or_pos i with hi0 | hipos
      · left
        subst hi0
        refine ⟨path.drop (0 + kw.length), ?_, hpostB⟩
        have h0 : path.take 0 = [] := rfl
        rw [h0, List.nil_append] at hdecomp
        exact hdecomp
      · right
        have hsep : sepAt path (i - 1) = true := by
          rcases hpre with h | h
          · omega
          · exact h
        obtain ⟨c, hcg, hcsep⟩ := (sepAt_iff path _).1 hsep
        have htake : path.take i = path.take (i - 1) ++ [c] := by
          have hi : i = (i - 1) + 1 := by omega
          rw [hi, List.take_succ]
          have : path[i - 1]? = some c := hcg
          rw [this]
          rfl
        exact ⟨path.take i, path.drop (i + kw.length), hdecomp,
          ⟨c, path.take (i - 1), htake, hcsep⟩, hpostB⟩
    · rintro (⟨post, hdecomp, hb⟩ | ⟨pre, post, hdecomp, ⟨cl, pre', hpre, hcl⟩, hb⟩)
      · refine ⟨0, ?_, ?_⟩
        · rw [List.mem_range]
          omega
        · simp only [Bool.and_eq_true, Bool.or_eq_true, beq_iff_eq]
          have hplen : path.length = kw.length + post.length := by
            rw [hdecomp, List.length_append]
          refine ⟨⟨?_, Or.inl trivial⟩, ?_⟩
          · rw [hdecomp, List.drop_zero, List.take_left]
          · rcases hb with hb | ⟨c, post', hb, hcsep⟩
            · left
              rw [hb] at hplen
              simp only [List.length_nil] at hplen
              omega
            · right
              rw [sepAt_iff]
              refine ⟨c, ?_, hcsep⟩
              rw [hdecomp, hb, Nat.zero_add]
              rw [List.getElem?_append_right (Nat.le_refl kw.length)]
              simp
      · refine ⟨pre.length, ?_, ?_⟩
        · have hplen : path.length = pre.length + (kw.length + post.length) := by
            rw [hdecomp, List.length_append, List.length_append]
            omega
          rw [List.mem_range]
          omega
        · simp only [Bool.and_eq_true, Bool.or_eq_true, beq_iff_eq]
          have hplen : path.length = pre.length + (kw.length + post.length) := by
            rw [hdecomp, List.length_append, List.length_append]
            omega
          refine ⟨⟨?_, Or.inr ?_⟩, ?_⟩
          · rw [hdecomp, List.append_assoc, List.drop_left, List.take_left]
          · rw [sepAt_iff]
            refine ⟨cl, ?_, hcl⟩
            have hprelen : pre.length = pre'.length + 1 := by
              rw [hpre, List.length_append]
              rfl
            have hidx : pre.length - 1 = pre'.length := by omega
            rw [hidx, hdecomp, hpre]
            rw [List.append_assoc (pre' ++ [cl]) kw post,
              List.append_assoc pre' [cl] (kw ++ post)]
            rw [List.getElem?_append_right (Nat.le_refl pre'.length)]
            simp
          · rcases hb with hb | ⟨c, post', hb, hcsep⟩
            · left
              rw [hb] at hplen
              simp only [List.length_nil] at hplen
              omega
            · right
              rw [sepAt_iff]
              refine ⟨c, ?_, hcsep⟩
              rw [hdecomp, hb]
              have hle : (pre ++ kw).length ≤ pre.length + kw.length := by simp
              rw [List.getElem?_append_right hle]
              simp
  · rw [if_neg hlen]
    constructor
    · intro h
      exact absurd h (by simp)
    · rintro (⟨post, hdecomp, -⟩ | ⟨pre, post, hdecomp, -, -⟩)
      · exfalso
        apply hlen
        rw [hdecomp, List.length_append]
        omega
      · exfalso
        apply hlen
        rw [hdecomp, List.length_append, List.length_append]
        omega

lemma contains_iff_segments (kw path : List Char)
    (hksep : ∀ c ∈ kw, isSepChar c = false) :
    containsLayerKeyword path kw = true ↔ kw ∈ segments path :=
  (contains_iff_BM kw path).trans (BM_iff_segments kw hksep path)

/-- C6: the layer classifier agrees, on every identifier, with the spec's
description: Handler when some whole path segment equals "handler",
otherwise Service when some segment equals "service", otherwise Repo when
some segment equals "repo", otherwise Service by default — so keywords
occurring only as proper substrings of a segment (e.g. "handlers",
"user_repo.go") do not match, and the priority order handler, service,
repo decides paths with several keywords. -/
theorem claim_C6 :
    (∀ s : String, detectLayer s = ClassifyLayerSpec s.toList) ∧
    detectLayer "project/handlers/user.go" = .service ∧
    detectLayer "user_repo.go" = .service ∧
    detectLayer "project/handler/user_handler.go" = .handler ∧
    detectLayer "a/handler/service/x.go" = .handler ∧
    detectLayer "a/service/repo/x.go" = .service := by
  refine ⟨?_, by decide, by decide, by decide, by decide, by decide⟩
  intro s
  rw [detectLayer, ClassifyLayerSpec]
  have e1 := contains_iff_segments "handler".toList s.toList (by decide)
  have e2 := contains_iff_segments "service".toList s.toList (by decide)
  have e3 := contains_iff_segments "repo".toList s.toList (by decide)
  by_cases h1 : containsLayerKeyword s.toList "handler".toList = true
  · rw [if_pos h1, if_pos (e1.1 h1)]
  · rw [if_neg h1, if_neg (fun hm => h1 (e1.2 hm))]
    by_cases h2 : containsLayerKeyword s.toList "service".toList = true
    · rw [if_pos h2, if_pos (e2.1 h2)]
    · rw [if_neg h2, if_neg (fun hm => h2 (e2.2 hm))]
      by_cases h3 : containsLayerKeyword s.toList "repo".toList = true
      · rw [if_pos h3, if_pos (e3.1 h3)]
      · rw [if_neg h3, if_neg (fun hm => h3 (e3.2 hm))]

theorem claim_C10_witness :
    (∀ op ∈ ([.addEdge "A" "B", .addNode "C"] : List GraphOp),
      mentionsOp "X" op = false) ∧
    (buildGraph [.addEdge "A" "B", .addNode "C"]).GetDependencies "X" = [] ∧
    "X" ∉ (buildGraph [.addEdge "A" "B", .addNode "C"]).nodes :=
  ⟨by decide, claim_C10 [.addEdge "A" "B", .addNode "C"] "X" (by decide)⟩

end RepoDoctor
